import Mathlib

/-!
Verification development for the pep604-converter transformation engine
(`src/transformer.py`).

Modelling conventions:
* Python `str` values are modelled as `List Char` (named `Str`), so that
  Python's slicing (`s[i:j]`), `str.split("\n")` and `"\n".join` become
  `List.take`/`List.drop`, `splitNL` and `joinNL`.
* The `ast` node classes used by the transformer are modelled by the
  inductives `Expr` and `Stmt`; every node carries its position span
  (`lineno`, `end_lineno`, `col_offset`, `end_col_offset`) exactly as the
  Python parser provides it.
* The mutable `Transformer` instance attributes become the record `TState`,
  threaded through the tree walk; a raised `ConflictingOperationsException`
  becomes the `.error` case of `Except Conflict`.
* `Transformer.sub_transformer` deep-copies the argument node, rebases its
  spans (`ast.increment_lineno` + `DedentTransformer`) and runs a fresh
  `Transformer` on the extracted source segment.  In the embedding the
  rebasing is applied lazily: the visitor carries a `remap : Span → Span`
  that is applied to every span read from the tree, and the nested run
  composes `dedent` onto it.  This is observationally identical to rewriting
  the spans stored in a copied tree, and keeps the recursion structural.
-/

abbrev Str := List Char

def str (s : String) : Str := s.data

/-- Python `source.split("\n")` (always returns at least one piece). -/
def splitNL : Str → List Str
  | [] => [[]]
  | c :: r =>
    if c = '\n' then [] :: splitNL r
    else
      match splitNL r with
      | [] => [[c]]
      | h :: t => (c :: h) :: t

/-- Python `"\n".join(lines)`. -/
def joinNL : List Str → Str
  | [] => []
  | [l] => l
  | l :: r :: t => l ++ '\n' :: joinNL (r :: t)

/-- Python `re.sub("^\n+", "", source)`: remove every newline at the very
start of the string (the regex is anchored, unanchored occurrences are not
touched). -/
def stripLeadingNL (s : Str) : Str := s.dropWhile (fun c => c == '\n')

/-! ## The `Rewriter` text splicer -/

/-- The `Substitution` dataclass. -/
structure Substitution where
  lineno : Nat
  end_lineno : Nat
  col_offset : Nat
  end_col_offset : Nat
  text : Str
deriving DecidableEq

/-- The payload of `ConflictingOperationsException(a, b)`: the two colliding
operations, in the order they appear in the exception message. -/
abbrev Conflict := Substitution × Substitution

namespace Rewriter

/-- `Rewriter._sort_key`. -/
def sort_key (op : Substitution) : Nat × Nat := (op.lineno, op.col_offset)

/-- Lexicographic `≤` on `(line, column)` sort keys: the comparison Python's
`bisect` performs on tuples. -/
def keyLe (a b : Nat × Nat) : Prop := a.1 < b.1 ∨ (a.1 = b.1 ∧ a.2 ≤ b.2)

instance : DecidablePred fun ab : (Nat × Nat) × (Nat × Nat) => keyLe ab.1 ab.2 :=
  fun _ => by unfold keyLe; infer_instance

instance (a b : Nat × Nat) : Decidable (keyLe a b) := by unfold keyLe; infer_instance

/-- `bisect.bisect(self.operations, key, key=self._sort_key)`.  On a list
sorted by `sort_key` (the `Rewriter` invariant), `bisect_right` returns the
number of elements whose key is `≤` the probe key, which is how it is
modelled here. -/
def bisect (ops : List Substitution) (k : Nat × Nat) : Nat :=
  ops.countP (fun o => decide (keyLe (sort_key o) k))

/-- `Rewriter._check_overlaps(a, b)` where `a` precedes `b` in sort order:
`some (a, b)` models raising `ConflictingOperationsException(a, b)`. -/
def check_overlaps (a b : Substitution) : Option Conflict :=
  if a.end_lineno > b.lineno then some (a, b)
  else if a.end_lineno = b.lineno ∧ a.end_col_offset > b.col_offset then some (a, b)
  else none

/-- `Rewriter.substitute`: insert the new operation at its sorted position
after checking the immediate predecessor and successor for overlap. -/
def substitute (ops : List Substitution)
    (lineno end_lineno col_offset end_col_offset : Nat) (text : Str) :
    Except Conflict (List Substitution) :=
  let op : Substitution := ⟨lineno, end_lineno, col_offset, end_col_offset, text⟩
  let idx := bisect ops (sort_key op)
  match (if 0 < idx then ops[idx - 1]?.bind (fun a => check_overlaps a op) else none) with
  | some c => .error c
  | none =>
    match ops[idx]?.bind (fun b => check_overlaps op b) with
    | some c => .error c
    | none => .ok (ops.insertIdx idx op)

/-- One iteration of the reversed loop in `Rewriter.get_result`: apply a
single operation to the current line buffer.  The `else` branch is the
assignment to `lines[op.lineno - 1]` followed by the descending deletion of
lines `op.end_lineno .. op.lineno + 1`, i.e. of the 0-based indices
`op.lineno .. op.end_lineno - 1`. -/
def applyOp (lines : List Str) (op : Substitution) : List Str :=
  if op.text = [] ∧ op.lineno = op.end_lineno ∧ op.col_offset = 0 ∧
      op.end_col_offset = (lines.getD (op.lineno - 1) []).length then
    lines.eraseIdx (op.lineno - 1)
  else
    let merged := (lines.getD (op.lineno - 1) []).take op.col_offset ++ op.text ++
      (lines.getD (op.end_lineno - 1) []).drop op.end_col_offset
    let lines' := lines.set (op.lineno - 1) merged
    lines'.take op.lineno ++ lines'.drop op.end_lineno

/-- `Rewriter.get_result`: split into lines, apply all operations in reverse
position order, join back. -/
def get_result (ops : List Substitution) (source : Str) : Str :=
  joinNL (ops.foldr (fun op lines => applyOp lines op) (splitNL source))

end Rewriter

/-! ## The `ast` data model -/

structure Span where
  lineno : Nat
  end_lineno : Nat
  col_offset : Nat
  end_col_offset : Nat
deriving DecidableEq

/-- Expression contexts (`ast.Load` / `ast.Store` / `ast.Del`). -/
inductive Ctx where
  | load
  | store
  | del
deriving DecidableEq

/-- An `ast.alias` (an imported name with an optional `as` rename). -/
structure Alias where
  name : Str
  asname : Option Str
deriving DecidableEq

/-- The expression nodes the transformer distinguishes.  `constant sp v`
models `ast.Constant`, with `v = some s` for a string literal with contents
`s` and `v = none` for every non-string constant.  Every expression kind the
transformer does not inspect (calls, operators, …) is collapsed into
`other`, keeping the list of its child expressions, which is all
`generic_visit` looks at. -/
inductive Expr where
  | name (sp : Span) (id : Str)
  | attribute (sp : Span) (value : Expr) (attr : Str)
  | constant (sp : Span) (strVal : Option Str)
  | subscript (sp : Span) (value : Expr) (slice : Expr) (ctx : Ctx)
  | tuple (sp : Span) (elts : List Expr)
  | other (sp : Span) (children : List Expr)

def Expr.span : Expr → Span
  | .name sp _ => sp
  | .attribute sp _ _ => sp
  | .constant sp _ => sp
  | .subscript sp _ _ _ => sp
  | .tuple sp _ => sp
  | .other sp _ => sp

/-- The statement nodes the transformer distinguishes: `ast.Import`,
`ast.ImportFrom`, and everything else (keeping child expressions and nested
statement bodies for `generic_visit`). -/
inductive Stmt where
  | imp (sp : Span) (names : List Alias)
  | impFrom (sp : Span) (module : Option Str) (names : List Alias)
  | other (sp : Span) (exprs : List Expr) (body : List Stmt)

/-- `Transformer.rewritable_types`. -/
def rewritable_types : List Str := [str "Union", str "Optional"]

/-- `isinstance(node, Transformer.as_is_node_types)`: `Constant`, `Name` and
`Attribute` nodes are reused as-is. -/
def is_as_is : Expr → Bool
  | .constant _ _ => true
  | .name _ _ => true
  | .attribute _ _ _ => true
  | _ => false

/-- `isinstance(node, ast.Constant) and isinstance(node.value, str)`. -/
def isStrConstant : Expr → Bool
  | .constant _ (some _) => true
  | _ => false

/-- `isinstance(node, ast.Constant)`. -/
def isConstant : Expr → Bool
  | .constant _ _ => true
  | _ => false

/-- `isinstance(node.value, ast.Name) and node.value.id == "typing"`
(the guard of `visit_Attribute`). -/
def isTypingName : Expr → Bool
  | .name _ tid => tid = str "typing"
  | _ => false

/-- The head-name resolution at the top of `visit_Subscript`: `node.value.id`
for a `Name`, `node.value.attr` for an `Attribute` on the name `typing`,
and `""` otherwise. -/
def lhsOf : Expr → Str
  | .name _ id => id
  | .attribute _ v attr =>
    match v with
    | .name _ tid => if tid = str "typing" then attr else []
    | _ => []
  | _ => []

/-- `ast.get_source_segment(source, node)`: the exact source slice between
the node's start and end positions (1-indexed lines, half-open columns). -/
def modHead (f : Str → Str) : List Str → List Str
  | [] => []
  | h :: t => f h :: t

def modLast (f : Str → Str) : List Str → List Str
  | [] => []
  | [x] => [f x]
  | x :: y :: t => x :: modLast f (y :: t)

def get_source_segment (source : Str) (sp : Span) : Str :=
  let lines := ((splitNL source).drop (sp.lineno - 1)).take (sp.end_lineno - sp.lineno + 1)
  joinNL (modHead (List.drop sp.col_offset) (modLast (List.take sp.end_col_offset) lines))

/-- The span rebasing performed at the start of `Transformer.sub_transformer`:
`ast.increment_lineno(sub_tree, -sub_tree.lineno + 1)` shifts every line
number so the root starts at line 1, then `DedentTransformer` subtracts the
root's column offset from the columns of positions still on (new) line 1.
`root` is the span of the extracted node. -/
def dedent (root : Span) (s : Span) : Span :=
  let d := root.lineno - 1
  let n := root.col_offset
  { lineno := s.lineno - d
    end_lineno := s.end_lineno - d
    col_offset := if s.lineno - d = 1 then s.col_offset - n else s.col_offset
    end_col_offset := if s.end_lineno - d = 1 then s.end_col_offset - n else s.end_col_offset }

/-! ## Transformer state -/

/-- A tracked `ast.ImportFrom` node (member of `Transformer._import_froms`). -/
structure ImportFromNode where
  sp : Span
  module : Option Str
  names : List Alias
deriving DecidableEq

/-- A tracked `ast.Import` node (member of `Transformer._imports`). -/
structure ImportNode where
  sp : Span
  names : List Alias
deriving DecidableEq

/-- The mutable attributes of a `Transformer` instance.  The Python sets are
modelled as duplicate-free-by-insertion lists; iteration order over a Python
set is arbitrary, and no behaviour below depends on the order. -/
structure TState where
  import_froms : List ImportFromNode
  imports : List ImportNode
  other_attrs_encountered : Bool
  keep_imports_for : List Str
  operations : List Substitution
deriving DecidableEq

def initState : TState := ⟨[], [], false, [], []⟩

/-- `self._keep_imports_for.add(w)`. -/
def addKeep (st : TState) (w : Str) : TState :=
  { st with keep_imports_for :=
      if w ∈ st.keep_imports_for then st.keep_imports_for else st.keep_imports_for ++ [w] }

/-- `set.add` for tracked import nodes. -/
def addImport (l : List ImportNode) (x : ImportNode) : List ImportNode :=
  if x ∈ l then l else l ++ [x]

def addImportFrom (l : List ImportFromNode) (x : ImportFromNode) : List ImportFromNode :=
  if x ∈ l then l else l ++ [x]

/-- `Transformer.substitute(node, text)`: forward the node's span to the
rewriter. -/
def TState.substitute (st : TState) (sp : Span) (text : Str) : Except Conflict TState := do
  let ops ← Rewriter.substitute st.operations sp.lineno sp.end_lineno sp.col_offset
    sp.end_col_offset text
  pure { st with operations := ops }

/-- The epilogue of the `sub_transformer` context manager: merge the nested
transformer's discoveries back into the outer state (the nested rewriter's
operations are not merged; its result text was already captured). -/
def mergeSub (st sub : TState) : TState :=
  { st with
    import_froms := st.import_froms ++ sub.import_froms.filter (fun r => ¬ r ∈ st.import_froms)
    imports := st.imports ++ sub.imports.filter (fun r => ¬ r ∈ st.imports)
    keep_imports_for := st.keep_imports_for ++
      sub.keep_imports_for.filter (fun w => ¬ w ∈ st.keep_imports_for)
    other_attrs_encountered := st.other_attrs_encountered || sub.other_attrs_encountered }

/-! ## Import rewriting (`Transformer.rewrite_imports`) -/

/-- `ast.unparse` rendering of one `ast.alias`. -/
def unparseAlias (a : Alias) : Str :=
  a.name ++ (match a.asname with | some n => str " as " ++ n | none => [])

def commaJoin : List Str → Str
  | [] => []
  | [x] => x
  | x :: y :: t => x ++ str ", " ++ commaJoin (y :: t)

/-- `ast.unparse` of an `ast.Import` node. -/
def unparseImport (names : List Alias) : Str :=
  str "import " ++ commaJoin (names.map unparseAlias)

/-- `ast.unparse` of an `ast.ImportFrom` node (level 0, as produced for all
tracked `from typing import …` statements). -/
def unparseImportFrom (module : Option Str) (names : List Alias) : Str :=
  str "from " ++ module.getD [] ++ str " import " ++ commaJoin (names.map unparseAlias)

/-- The alias filter applied to a tracked `ImportFrom`: keep aliases that are
not wrapper names, and wrapper names that must be retained. -/
def importFromNames (keep : List Str) (names : List Alias) : List Alias :=
  names.filter (fun a => decide (a.name ∉ rewritable_types ∨ a.name ∈ keep))

/-- The `self._imports` loop of `rewrite_imports` (runs only when no other
`typing` attribute was encountered). -/
def rewriteImportsLoop (st : TState) : List ImportNode → Except Conflict TState
  | [] => pure st
  | node :: rest => do
    let names' := node.names.filter (fun a => decide (a.name ≠ str "typing"))
    let st' ←
      if names' = [] then st.substitute node.sp []
      else st.substitute node.sp (unparseImport names')
    rewriteImportsLoop st' rest

/-- The `self._import_froms` loop of `rewrite_imports`. -/
def rewriteImportFromsLoop (st : TState) : List ImportFromNode → Except Conflict TState
  | [] => pure st
  | node :: rest => do
    let names' := importFromNames st.keep_imports_for node.names
    let st' ←
      if names'.length ≠ node.names.length then
        if names' = [] then st.substitute node.sp []
        else st.substitute node.sp (unparseImportFrom node.module names')
      else pure st
    rewriteImportFromsLoop st' rest

/-- `Transformer.rewrite_imports`. -/
def rewrite_imports (st : TState) : Except Conflict TState := do
  let st₁ ←
    if st.other_attrs_encountered then pure st
    else rewriteImportsLoop st st.imports
  rewriteImportFromsLoop st₁ st₁.import_froms

/-- `" | ".join(sub_strs)`. -/
def barJoin : List Str → Str
  | [] => []
  | [x] => x
  | x :: y :: t => x ++ str " | " ++ barJoin (y :: t)

/-! ## The visitor (`Transformer.visit` and friends)

`ast.NodeTransformer.visit` dispatches `Subscript` nodes to
`visit_Subscript`, `Attribute` nodes to `visit_Attribute`, `Import` /
`ImportFrom` statements to their visitors, and everything else to
`generic_visit` (which recursively visits every child node).  The nested
`sub_transformer(...).transform()` runs are inlined at their two call
sites (`Optional[T]` with a non-atomic `T`, and each `Union` tuple
element); the standalone wrappers `sub_transformer` / `transform_expr`
below repeat the same code for use in specifications. -/

mutual

def visit (remap : Span → Span) (source : Str) (st : TState) : Expr → Except Conflict TState
  | .name _ _ => pure st
  | .constant _ _ => pure st
  | .attribute _ value attr =>
    -- `visit_Attribute`, then `generic_visit` into `node.value`
    let st :=
      if isTypingName value = true ∧ attr ∉ rewritable_types then
        { st with other_attrs_encountered := true }
      else st
    visit remap source st value
  | .tuple _ elts => visitList remap source st elts
  | .other _ children => visitList remap source st children
  | .subscript sp value slice ctx =>
    if ctx = .load ∧ lhsOf value ∈ rewritable_types then
      if lhsOf value = str "Optional" then
        if isStrConstant slice then
          -- `Optional["T"]`: retain the import, fall through to `generic_visit`
          do
            let st ← visit remap source (addKeep st (str "Optional")) value
            visit remap source st slice
        else do
          -- `Optional[T]`
          let (sub_str, st') ←
            if is_as_is slice then
              pure (get_source_segment source (remap slice.span), st)
            else do
              -- `with self.sub_transformer(node.slice) as sub_transformer:`
              let subSrc := get_source_segment source (remap slice.span)
              let subSt ← visit (fun s => dedent (remap slice.span) (remap s)) subSrc
                initState slice
              let subSt ← rewrite_imports subSt
              pure (stripLeadingNL (Rewriter.get_result subSt.operations subSrc),
                mergeSub st subSt)
          let st'' ← st'.substitute (remap sp) (sub_str ++ str " | None")
          pure st''
      else
        -- `lhs == "Union"`
        match slice with
        | .tuple tsp elts =>
          if elts.any isStrConstant then
            -- `Union[X, "Y"]`: retain, fall through to `generic_visit` (visiting
            -- the tuple slice visits exactly its elements)
            do
              let st ← visit remap source (addKeep st (str "Union")) value
              visitList remap source st elts
          else do
            -- `Union[X, Y]`
            let (sub_strs, st') ← unionParts remap source st
              (is_as_is (Expr.tuple tsp elts)) elts
            let st'' ← st'.substitute (remap sp) (barJoin sub_strs)
            pure st''
        | slc =>
          if isConstant slc then
            -- `Union["X"]` (any single `Constant` argument): retain, fall through
            do
              let st ← visit remap source (addKeep st (str "Union")) value
              visit remap source st slc
          else do
            -- `Union[X]` with a single non-tuple, non-constant argument
            let st' ← st.substitute (remap sp) (get_source_segment source (remap slc.span))
            pure st'
    else do
      -- not a wrapper usage: `generic_visit`
      let st ← visit remap source st value
      visit remap source st slice

/-- `generic_visit`'s recursion over a list of child expressions. -/
def visitList (remap : Span → Span) (source : Str) (st : TState) :
    List Expr → Except Conflict TState
  | [] => pure st
  | e :: r => do
    let st ← visit remap source st e
    visitList remap source st r

/-- The `for name in node.slice.elts` loop of the `Union[X, Y]` branch:
render each element (the `isinstance(node.slice, …)` test is on the tuple
itself, so the first branch is dead and every element runs through the
sub-transformer), threading the merged state. -/
def unionParts (remap : Span → Span) (source : Str) (st : TState) (sliceAsIs : Bool) :
    List Expr → Except Conflict (List Str × TState)
  | [] => pure ([], st)
  | e :: rest =>
    if sliceAsIs then do
      let (ss, st') ← unionParts remap source st sliceAsIs rest
      pure (get_source_segment source (remap e.span) :: ss, st')
    else do
      let subSrc := get_source_segment source (remap e.span)
      let subSt ← visit (fun s => dedent (remap e.span) (remap s)) subSrc initState e
      let subSt ← rewrite_imports subSt
      let out := stripLeadingNL (Rewriter.get_result subSt.operations subSrc)
      let (ss, st') ← unionParts remap source (mergeSub st subSt) sliceAsIs rest
      pure (out :: ss, st')

end

/-- `Transformer.sub_transformer(node)` followed by `transformer.transform()`:
returns the transformed fragment text together with the nested transformer's
final state (whose discoveries the context-manager epilogue merges into the
outer state).  This is the code inlined at the two call sites inside
`visit`. -/
def sub_transformer (remap : Span → Span) (source : Str) (e : Expr) :
    Except Conflict (Str × TState) := do
  let subSrc := get_source_segment source (remap e.span)
  let subSt ← visit (fun s => dedent (remap e.span) (remap s)) subSrc initState e
  let subSt ← rewrite_imports subSt
  pure (stripLeadingNL (Rewriter.get_result subSt.operations subSrc), subSt)

/-! ## Statement visiting and `Transformer.transform` -/

mutual

/-- Dispatch for statements: `visit_Import`, `visit_ImportFrom`, and
`generic_visit` for everything else. -/
def visitStmt (source : Str) (st : TState) : Stmt → Except Conflict TState
  | .imp sp names =>
    if names.any (fun a => decide (a.name = str "typing")) then
      pure { st with imports := addImport st.imports ⟨sp, names⟩ }
    else pure st
  | .impFrom sp module names =>
    if module = some (str "typing") ∧
        names.any (fun a => decide (a.name ∈ rewritable_types)) then
      pure { st with import_froms := addImportFrom st.import_froms ⟨sp, module, names⟩ }
    else pure st
  | .other _ exprs body => do
    let st ← visitList id source st exprs
    visitStmts source st body

def visitStmts (source : Str) (st : TState) : List Stmt → Except Conflict TState
  | [] => pure st
  | s :: r => do
    let st ← visitStmt source st s
    visitStmts source st r

end

/-- `Transformer(source).transform()` for a parsed module `tree`: one visitor
pass, then `rewrite_imports`, then `Rewriter.get_result`, then the leading
newline strip. -/
def transform (source : Str) (tree : List Stmt) : Except Conflict Str := do
  let st ← visitStmts source initState tree
  let st ← rewrite_imports st
  pure (stripLeadingNL (Rewriter.get_result st.operations source))

/-- `Transformer(source, node).transform()` for an expression root, as run by
`sub_transformer` (same pipeline, expression entry point). -/
def transform_expr (remap : Span → Span) (source : Str) (e : Expr) :
    Except Conflict Str := do
  let st ← visit remap source initState e
  let st ← rewrite_imports st
  pure (stripLeadingNL (Rewriter.get_result st.operations source))

/-! ## Size measures and basic text lemmas -/

mutual

def exprSize : Expr → Nat
  | .name _ _ => 1
  | .attribute _ v _ => exprSize v + 1
  | .constant _ _ => 1
  | .subscript _ v s _ => exprSize v + exprSize s + 1
  | .tuple _ es => exprListSize es + 1
  | .other _ es => exprListSize es + 1

def exprListSize : List Expr → Nat
  | [] => 0
  | e :: r => exprSize e + exprListSize r

end

theorem exprSize_pos (e : Expr) : 1 ≤ exprSize e := by
  cases e <;> simp [exprSize]

theorem splitNL_ne_nil (s : Str) : splitNL s ≠ [] := by
  cases s with
  | nil => simp [splitNL]
  | cons c r =>
    simp only [splitNL]
    split
    · simp
    · cases h : splitNL r <;> simp

theorem joinNL_splitNL (s : Str) : joinNL (splitNL s) = s := by
  induction s with
  | nil => rfl
  | cons c r ih =>
    simp only [splitNL]
    split
    · rename_i hc
      rcases h : splitNL r with _ | ⟨l, t⟩
      · exact absurd h (splitNL_ne_nil r)
      · rw [h] at ih
        subst hc
        simp [joinNL, ih]
    · rcases h : splitNL r with _ | ⟨l, t⟩
      · exact absurd h (splitNL_ne_nil r)
      · rw [h] at ih
        cases t with
        | nil => simpa [joinNL] using congrArg (c :: ·) ih
        | cons y t' => simpa [joinNL] using congrArg (c :: ·) ih

/-- With no recorded operations, `get_result` returns the source unchanged. -/
theorem get_result_nil (source : Str) : Rewriter.get_result [] source = source := by
  simp [Rewriter.get_result, joinNL_splitNL]

theorem stripLeadingNL_of_head (s : Str) (h : s.head? ≠ some '\n') :
    stripLeadingNL s = s := by
  cases s with
  | nil => rfl
  | cons c r =>
    simp only [List.head?] at h
    have hc : ¬ c = '\n' := by intro hc; exact h (by rw [hc])
    have hb : (c == '\n') = false := by simp [hc]
    simp [stripLeadingNL, List.dropWhile, hb]

theorem stripLeadingNL_head (s : Str) : (stripLeadingNL s).head? ≠ some '\n' := by
  induction s with
  | nil => simp [stripLeadingNL]
  | cons c r ih =>
    by_cases hc : c = '\n'
    · simpa [stripLeadingNL, List.dropWhile, hc] using ih
    · have hb : (c == '\n') = false := by simp [hc]
      simp [stripLeadingNL, List.dropWhile, hb, List.head?]
      intro h
      exact hc h

/-! ## The no-wrapper predicates of the specification

A file is "irrelevant input" when it contains no `Union`/`Optional`
subscript usage (by plain name or as `typing.…` attribute) and no import of
the wrapper names or of the `typing` module. -/

mutual

def cleanExpr : Expr → Bool
  | .name _ _ => true
  | .constant _ _ => true
  | .attribute _ v _ => cleanExpr v
  | .subscript _ v s _ =>
    decide (lhsOf v ∉ rewritable_types) && cleanExpr v && cleanExpr s
  | .tuple _ es => cleanExprList es
  | .other _ es => cleanExprList es

def cleanExprList : List Expr → Bool
  | [] => true
  | e :: r => cleanExpr e && cleanExprList r

end

mutual

def cleanStmt : Stmt → Bool
  | .imp _ names => names.all (fun a => decide (a.name ≠ str "typing"))
  | .impFrom _ module names =>
    !(decide (module = some (str "typing")) &&
      names.any (fun a => decide (a.name ∈ rewritable_types)))
  | .other _ exprs body => cleanExprList exprs && cleanStmtList body

def cleanStmtList : List Stmt → Bool
  | [] => true
  | s :: r => cleanStmt s && cleanStmtList r

end

mutual

def stmtSize : Stmt → Nat
  | .imp _ _ => 1
  | .impFrom _ _ _ => 1
  | .other _ _ body => stmtListSize body + 1

def stmtListSize : List Stmt → Nat
  | [] => 0
  | s :: r => stmtSize s + stmtListSize r

end

theorem stmtSize_pos (s : Stmt) : 1 ≤ stmtSize s := by
  cases s <;> simp [stmtSize]

theorem visit_clean_aux :
    ∀ n : Nat,
      (∀ e : Expr, 2 * exprSize e ≤ n → cleanExpr e = true →
        ∀ remap source st, ∃ b, visit remap source st e =
          .ok { st with other_attrs_encountered := b }) ∧
      (∀ es : List Expr, 2 * exprListSize es + 1 ≤ n → cleanExprList es = true →
        ∀ remap source st, ∃ b, visitList remap source st es =
          .ok { st with other_attrs_encountered := b }) := by
  intro n
  induction n using Nat.strong_induction_on with
  | _ n IH =>
    constructor
    · intro e hsz hclean remap source st
      match e with
      | .name sp id => exact ⟨st.other_attrs_encountered, rfl⟩
      | .constant sp v => exact ⟨st.other_attrs_encountered, rfl⟩
      | .attribute sp v a =>
        simp only [exprSize] at hsz
        simp only [cleanExpr] at hclean
        by_cases hcond : isTypingName v = true ∧ a ∉ rewritable_types
        · obtain ⟨b, hb⟩ := (IH (2 * exprSize v) (by omega)).1 v le_rfl hclean remap source
            { st with other_attrs_encountered := true }
          exact ⟨b, by simp only [visit, if_pos hcond]; exact hb⟩
        · obtain ⟨b, hb⟩ := (IH (2 * exprSize v) (by omega)).1 v le_rfl hclean remap source st
          exact ⟨b, by simp only [visit, if_neg hcond]; exact hb⟩
      | .tuple sp es =>
        simp only [exprSize] at hsz
        simp only [cleanExpr] at hclean
        obtain ⟨b, hb⟩ := (IH (2 * exprListSize es + 1) (by omega)).2 es le_rfl hclean
          remap source st
        exact ⟨b, by simp only [visit]; exact hb⟩
      | .other sp es =>
        simp only [exprSize] at hsz
        simp only [cleanExpr] at hclean
        obtain ⟨b, hb⟩ := (IH (2 * exprListSize es + 1) (by omega)).2 es le_rfl hclean
          remap source st
        exact ⟨b, by simp only [visit]; exact hb⟩
      | .subscript sp v s ctx =>
        simp only [exprSize] at hsz
        simp only [cleanExpr, Bool.and_eq_true, decide_eq_true_eq] at hclean
        obtain ⟨⟨hlhs, hcv⟩, hcs⟩ := hclean
        have hcond : ¬ (ctx = Ctx.load ∧ lhsOf v ∈ rewritable_types) := by
          rintro ⟨-, h⟩; exact hlhs h
        obtain ⟨b₁, hb₁⟩ := (IH (2 * exprSize v) (by omega)).1 v le_rfl hcv remap source st
        obtain ⟨b₂, hb₂⟩ := (IH (2 * exprSize s) (by omega)).1 s le_rfl hcs remap source
          { st with other_attrs_encountered := b₁ }
        refine ⟨b₂, ?_⟩
        rw [visit.eq_def]
        simp only [if_neg hcond]
        rw [hb₁]
        simpa using hb₂
    · intro es hsz hclean remap source st
      match es with
      | [] => exact ⟨st.other_attrs_encountered, rfl⟩
      | e :: r =>
        simp only [exprListSize] at hsz
        simp only [cleanExprList, Bool.and_eq_true] at hclean
        have h1 := exprSize_pos e
        obtain ⟨b₁, hb₁⟩ := (IH (2 * exprSize e) (by omega)).1 e le_rfl hclean.1 remap source st
        obtain ⟨b₂, hb₂⟩ := (IH (2 * exprListSize r + 1) (by omega)).2 r le_rfl hclean.2
          remap source { st with other_attrs_encountered := b₁ }
        refine ⟨b₂, ?_⟩
        simp only [visitList]
        rw [hb₁]
        simpa using hb₂

theorem visit_clean (e : Expr) (h : cleanExpr e = true) (remap : Span → Span)
    (source : Str) (st : TState) :
    ∃ b, visit remap source st e = .ok { st with other_attrs_encountered := b } :=
  (visit_clean_aux (2 * exprSize e)).1 e le_rfl h remap source st

theorem visitList_clean (es : List Expr) (h : cleanExprList es = true) (remap : Span → Span)
    (source : Str) (st : TState) :
    ∃ b, visitList remap source st es = .ok { st with other_attrs_encountered := b } :=
  (visit_clean_aux (2 * exprListSize es + 1)).2 es le_rfl h remap source st

theorem visitStmt_clean_aux :
    ∀ n : Nat,
      (∀ s : Stmt, 2 * stmtSize s ≤ n → cleanStmt s = true →
        ∀ source st, ∃ b, visitStmt source st s =
          .ok { st with other_attrs_encountered := b }) ∧
      (∀ ss : List Stmt, 2 * stmtListSize ss + 1 ≤ n → cleanStmtList ss = true →
        ∀ source st, ∃ b, visitStmts source st ss =
          .ok { st with other_attrs_encountered := b }) := by
  intro n
  induction n using Nat.strong_induction_on with
  | _ n IH =>
    constructor
    · intro s hsz hclean source st
      match s with
      | .imp sp names =>
        simp only [cleanStmt] at hclean
        have hany : (names.any fun a => decide (a.name = str "typing")) = false := by
          rw [List.any_eq_false]
          intro a ha
          simpa using List.all_eq_true.mp hclean a ha
        refine ⟨st.other_attrs_encountered, ?_⟩
        simp only [visitStmt]
        simp only [hany]
        rfl
      | .impFrom sp module names =>
        simp only [cleanStmt, Bool.not_eq_true', Bool.and_eq_false_iff] at hclean
        have hcond : ¬ (module = some (str "typing") ∧
            (names.any fun a => decide (a.name ∈ rewritable_types)) = true) := by
          rcases hclean with h | h
          · rintro ⟨h1, -⟩; simp [h1] at h
          · rintro ⟨-, h2⟩; simp [h2] at h
        refine ⟨st.other_attrs_encountered, ?_⟩
        simp only [visitStmt]
        rw [if_neg hcond]
        rfl
      | .other sp exprs body =>
        simp only [stmtSize] at hsz
        simp only [cleanStmt, Bool.and_eq_true] at hclean
        obtain ⟨b₁, hb₁⟩ := visitList_clean exprs hclean.1 id source st
        obtain ⟨b₂, hb₂⟩ := (IH (2 * stmtListSize body + 1) (by omega)).2 body le_rfl
          hclean.2 source { st with other_attrs_encountered := b₁ }
        refine ⟨b₂, ?_⟩
        simp only [visitStmt]
        rw [hb₁]
        simpa using hb₂
    · intro ss hsz hclean source st
      match ss with
      | [] => exact ⟨st.other_attrs_encountered, rfl⟩
      | s :: r =>
        simp only [stmtListSize] at hsz
        simp only [cleanStmtList, Bool.and_eq_true] at hclean
        have h1 := stmtSize_pos s
        obtain ⟨b₁, hb₁⟩ := (IH (2 * stmtSize s) (by omega)).1 s le_rfl hclean.1 source st
        obtain ⟨b₂, hb₂⟩ := (IH (2 * stmtListSize r + 1) (by omega)).2 r le_rfl hclean.2
          source { st with other_attrs_encountered := b₁ }
        refine ⟨b₂, ?_⟩
        simp only [visitStmts]
        rw [hb₁]
        simpa using hb₂

theorem visitStmts_clean (ss : List Stmt) (h : cleanStmtList ss = true) (source : Str)
    (st : TState) :
    ∃ b, visitStmts source st ss = .ok { st with other_attrs_encountered := b } :=
  (visitStmt_clean_aux (2 * stmtListSize ss + 1)).2 ss le_rfl h source st

theorem rewrite_imports_empty (st : TState) (h1 : st.imports = [])
    (h2 : st.import_froms = []) : rewrite_imports st = .ok st := by
  unfold rewrite_imports
  by_cases hb : st.other_attrs_encountered
  · simp [hb, h2, rewriteImportFromsLoop, pure, Except.pure, Bind.bind, Except.bind]
  · simp [hb, h1, h2, rewriteImportsLoop, rewriteImportFromsLoop, pure, Except.pure,
      Bind.bind, Except.bind]

/-- C1 (amended form): on a module with no wrapper subscripts and no
typing-related imports, `transform` returns the input with its leading
newlines stripped; when the input does not begin with a newline it is
returned byte-identically. -/
theorem C1_noop_modulo_leading_newlines (source : Str) (tree : List Stmt)
    (h : cleanStmtList tree = true) :
    transform source tree = .ok (stripLeadingNL source) ∧
      (source.head? ≠ some '\n' → transform source tree = .ok source) := by
  obtain ⟨b, hb⟩ := visitStmts_clean tree h source initState
  have hri : rewrite_imports { initState with other_attrs_encountered := b } =
      .ok { initState with other_attrs_encountered := b } :=
    rewrite_imports_empty _ rfl rfl
  have hmain : transform source tree = .ok (stripLeadingNL source) := by
    unfold transform
    rw [hb]
    show (rewrite_imports _).bind _ = _
    rw [hri]
    show Except.ok (stripLeadingNL (Rewriter.get_result initState.operations source)) = _
    rw [show initState.operations = [] from rfl, get_result_nil]
  exact ⟨hmain, fun hh => by rw [hmain, stripLeadingNL_of_head source hh]⟩

/-- The parse of `"\npass"`: a single `pass` statement on line 2. -/
def exNoopSrc : Str := str "\npass"

def exNoopTree : List Stmt := [.other ⟨2, 2, 0, 4⟩ [] []]

/-- C1 counterexample: a file with no wrapper usages and no related imports
whose text begins with a blank line is not returned byte-identically — the
leading newline is stripped. -/
theorem C1_counterexample :
    transform exNoopSrc exNoopTree = .ok (str "pass") ∧ str "pass" ≠ exNoopSrc :=
  ⟨rfl, by decide⟩

/-- C1 witness: a concrete clean input that does not begin with a newline is
returned byte-identically. -/
theorem C1_witness :
    transform (str "x = 1") [.other ⟨1, 1, 0, 5⟩ [.name ⟨1, 1, 0, 1⟩ (str "x")] []] =
      .ok (str "x = 1") :=
  (C1_noop_modulo_leading_newlines (str "x = 1")
    [.other ⟨1, 1, 0, 5⟩ [.name ⟨1, 1, 0, 1⟩ (str "x")] []] (by decide)).2 (by decide)

/-- Source of the C2 failing input: a nested single-argument `Union`. -/
def exNestedSrc : Str := str "from typing import Union\nx: Union[Union[int, str]]"

/-- Its parse: the `Union[X]` shape is rewritten by copying the argument's
source text verbatim, without visiting it. -/
def exNestedTree : List Stmt :=
  [ .impFrom ⟨1, 1, 0, 24⟩ (some (str "typing")) [⟨str "Union", none⟩],
    .other ⟨2, 2, 0, 25⟩
      [ .name ⟨2, 2, 0, 1⟩ (str "x"),
        .subscript ⟨2, 2, 3, 25⟩ (.name ⟨2, 2, 3, 8⟩ (str "Union"))
          (.subscript ⟨2, 2, 9, 24⟩ (.name ⟨2, 2, 9, 14⟩ (str "Union"))
            (.tuple ⟨2, 2, 15, 23⟩
              [.name ⟨2, 2, 15, 18⟩ (str "int"), .name ⟨2, 2, 20, 23⟩ (str "str")])
            .load)
          .load ] [] ]

/-- The first pass's output and its parse. -/
def exNestedSrc' : Str := str "x: Union[int, str]"

def exNestedTree' : List Stmt :=
  [ .other ⟨1, 1, 0, 18⟩
      [ .name ⟨1, 1, 0, 1⟩ (str "x"),
        .subscript ⟨1, 1, 3, 18⟩ (.name ⟨1, 1, 3, 8⟩ (str "Union"))
          (.tuple ⟨1, 1, 9, 17⟩
            [.name ⟨1, 1, 9, 12⟩ (str "int"), .name ⟨1, 1, 14, 17⟩ (str "str")])
          .load ] [] ]

/-- C2: `Transformer.transform` performs a single pass and never re-parses:
on the failing input `"from typing import Union\nx: Union[Union[int, str]]"`
it returns `"x: Union[int, str]"`, and transforming that output (re-parsed)
changes it again to `"x: int | str"` — the returned text is not a fixed
point, contradicting the claimed zero-edit convergence. -/
theorem C2_not_fixed_point :
    transform exNestedSrc exNestedTree = .ok exNestedSrc' ∧
      transform exNestedSrc' exNestedTree' = .ok (str "x: int | str") ∧
      str "x: int | str" ≠ exNestedSrc' :=
  ⟨rfl, rfl, by decide⟩

/-- C10: whatever the input, a successful `transform` never returns a string
beginning with a newline (`re.sub("^\n+", "", …)` runs on every result, also
on zero-edit passes). -/
theorem C10_no_leading_newline (source : Str) (tree : List Stmt) (r : Str)
    (h : transform source tree = .ok r) : r.head? ≠ some '\n' := by
  unfold transform at h
  rcases hv : visitStmts source initState tree with c | st
  · rw [hv] at h; exact absurd h (by simp [Bind.bind, Except.bind])
  · rw [hv] at h
    rcases hr : rewrite_imports st with c | st'
    · rw [show (Except.ok st >>= fun st => rewrite_imports st >>= fun st =>
        pure (stripLeadingNL (Rewriter.get_result st.operations source))) =
        (rewrite_imports st >>= fun st =>
          pure (stripLeadingNL (Rewriter.get_result st.operations source))) from rfl,
        hr] at h
      exact absurd h (by simp [Bind.bind, Except.bind])
    · rw [show (Except.ok st >>= fun st => rewrite_imports st >>= fun st =>
        pure (stripLeadingNL (Rewriter.get_result st.operations source))) =
        (rewrite_imports st >>= fun st =>
          pure (stripLeadingNL (Rewriter.get_result st.operations source))) from rfl,
        hr] at h
      have : r = stripLeadingNL (Rewriter.get_result st'.operations source) := by
        simpa [Bind.bind, Except.bind, pure, Except.pure] using h.symm
      rw [this]
      exact stripLeadingNL_head _

/-- C10 witness at a concrete input. -/
theorem C10_witness :
    (str "pass").head? ≠ some '\n' :=
  C10_no_leading_newline exNoopSrc exNoopTree (str "pass") rfl

def isTuple : Expr → Bool
  | .tuple _ _ => true
  | _ => false

/-- The two syntactic shapes that make `visit_Subscript` resolve a wrapper
head name `w`: a plain `Name` or a `typing.…` attribute. -/
def headShape (value : Expr) (w : String) : Prop :=
  (∃ vsp, value = .name vsp (str w)) ∨
  (∃ asp nsp, value = .attribute asp (.name nsp (str "typing")) (str w))

theorem lhsOf_headShape {value : Expr} {w : String} (h : headShape value w)
    (hw : str w ∈ rewritable_types) : lhsOf value = str w := by
  rcases h with ⟨vsp, rfl⟩ | ⟨asp, nsp, rfl⟩
  · rfl
  · simp [lhsOf]

/-- Visiting a wrapper head (either shape) is a no-op on the state: a `Name`
has no visitor, and `visit_Attribute` does not set the flag for `typing.Union`
/ `typing.Optional`. -/
theorem visit_headShape {value : Expr} {w : String} (h : headShape value w)
    (hw : str w ∈ rewritable_types) (remap : Span → Span) (source : Str) (st : TState) :
    visit remap source st value = .ok st := by
  rcases h with ⟨vsp, rfl⟩ | ⟨asp, nsp, rfl⟩
  · rfl
  · have hcond : ¬ (isTypingName (Expr.name nsp (str "typing")) = true ∧
        str w ∉ rewritable_types) := by
      rintro ⟨-, hmem⟩; exact hmem hw
    simp only [visit, if_neg hcond]
    rfl

/-- Unfolding of the `Optional[T]` branch for a non-atomic, non-string `T`:
the visit is the sub-transformer run followed by the state merge and the
edit emission. -/
theorem visit_optional_nonatomic (remap : Span → Span) (source : Str) (st : TState)
    (sp : Span) (value slice : Expr) (h : headShape value "Optional")
    (hstr : isStrConstant slice = false) (hasis : is_as_is slice = false) :
    visit remap source st (.subscript sp value slice .load) =
      sub_transformer remap source slice >>= fun p =>
        (mergeSub st p.2).substitute (remap sp) (p.1 ++ str " | None") := by
  have hw : str "Optional" ∈ rewritable_types := by decide
  have hlhs : lhsOf value = str "Optional" := lhsOf_headShape h hw
  have hcond : (Ctx.load = Ctx.load ∧ lhsOf value ∈ rewritable_types) :=
    ⟨rfl, by rw [hlhs]; exact hw⟩
  rw [visit.eq_def]
  simp only [if_pos hcond, hlhs, if_pos rfl, hstr, Bool.false_eq_true, if_false, hasis]
  simp only [sub_transformer]
  simp only [bind_assoc, pure_bind, bind_pure]
  rw [if_pos (show True ∧ str "Optional" ∈ rewritable_types from ⟨trivial, hw⟩),
    if_pos (show True from trivial)]

/-- C5: behaviour of `visit_Subscript` at every nullable-wrapper usage site
`Optional[T]` / `typing.Optional[T]` in load context.  (a) If `T` is a string
literal the node is left untouched (no edit operation is recorded) and
`"Optional"` is added to the retention set.  (b) If `T` is atomic (a name,
attribute or literal) the whole site is replaced by its source slice followed
by `" | None"`.  (c) Otherwise the replacement text is the recursive
sub-transformer's output followed by `" | None"`, over the state merged with
the nested run's discoveries. -/
theorem C5_optional_branch (remap : Span → Span) (source : Str) (st : TState)
    (sp : Span) (value slice : Expr) (h : headShape value "Optional") :
    (isStrConstant slice = true →
      visit remap source st (.subscript sp value slice .load) =
        .ok (addKeep st (str "Optional")) ∧
      str "Optional" ∈ (addKeep st (str "Optional")).keep_imports_for ∧
      (addKeep st (str "Optional")).operations = st.operations) ∧
    (isStrConstant slice = false → is_as_is slice = true →
      visit remap source st (.subscript sp value slice .load) =
        st.substitute (remap sp)
          (get_source_segment source (remap slice.span) ++ str " | None")) ∧
    (isStrConstant slice = false → is_as_is slice = false →
      ∀ out subSt, sub_transformer remap source slice = .ok (out, subSt) →
        visit remap source st (.subscript sp value slice .load) =
          (mergeSub st subSt).substitute (remap sp) (out ++ str " | None")) := by
  have hw : str "Optional" ∈ rewritable_types := by decide
  have hlhs : lhsOf value = str "Optional" := lhsOf_headShape h hw
  have hcond : (Ctx.load = Ctx.load ∧ lhsOf value ∈ rewritable_types) := ⟨rfl, by rw [hlhs]; exact hw⟩
  refine ⟨?_, ?_, ?_⟩
  · intro hstr
    rcases hsl : slice with _ | _ | ⟨csp, so⟩ | _ | _ | _ <;> rw [hsl] at hstr <;>
      simp [isStrConstant] at hstr
    rcases so with _ | s
    · simp at hstr
    · refine ⟨?_, ?_, ?_⟩
      · rw [visit.eq_def]
        simp only [if_pos hcond, hlhs, if_pos rfl]
        have : isStrConstant (Expr.constant csp (some s)) = true := rfl
        rw [if_pos this]
        rw [visit_headShape h hw]
        show visit remap source (addKeep st (str "Optional")) (Expr.constant csp (some s)) = _
        rfl
      · simp only [addKeep]
        split
        · assumption
        · simp
      · rfl
  · intro hstr hasis
    rw [visit.eq_def]
    simp only [if_pos hcond, hlhs, if_pos rfl, hstr, Bool.false_eq_true, if_false, if_pos hasis]
    show (pure (get_source_segment source (remap slice.span), st) >>= fun x =>
        x.2.substitute (remap sp) (x.1 ++ str " | None") >>= pure) = _
    rw [pure_bind]
    show (st.substitute (remap sp) (get_source_segment source (remap slice.span) ++
      str " | None") >>= pure) = _
    exact bind_pure _
  · intro hstr hasis out subSt hsub
    rw [visit_optional_nonatomic remap source st sp value slice h hstr hasis, hsub]
    rfl

/-- C7 (amended form): at a union-wrapper usage site with a single non-tuple
argument, any `Constant` argument — string literal or not — marks `"Union"`
retained and leaves the site untouched; every non-`Constant` argument is
replaced by its original source slice alone. -/
theorem C7_union_single_branch (remap : Span → Span) (source : Str) (st : TState)
    (sp : Span) (value slice : Expr) (h : headShape value "Union")
    (hnt : isTuple slice = false) :
    (isConstant slice = true →
      visit remap source st (.subscript sp value slice .load) =
        .ok (addKeep st (str "Union")) ∧
      str "Union" ∈ (addKeep st (str "Union")).keep_imports_for ∧
      (addKeep st (str "Union")).operations = st.operations) ∧
    (isConstant slice = false →
      visit remap source st (.subscript sp value slice .load) =
        st.substitute (remap sp) (get_source_segment source (remap slice.span))) := by
  have hw : str "Union" ∈ rewritable_types := by decide
  have hlhs : lhsOf value = str "Union" := lhsOf_headShape h hw
  have hcond : (Ctx.load = Ctx.load ∧ lhsOf value ∈ rewritable_types) :=
    ⟨rfl, by rw [hlhs]; exact hw⟩
  have hopt : ¬ (lhsOf value = str "Optional") := by rw [hlhs]; decide
  constructor
  · intro hc
    rcases slice with ⟨a1, a2⟩ | ⟨a1, a2, a3⟩ | ⟨csp, so⟩ | ⟨a1, a2, a3, a4⟩ | ⟨a1, a2⟩ |
        ⟨a1, a2⟩
    · simp [isConstant] at hc
    · simp [isConstant] at hc
    · refine ⟨?_, ?_, ?_⟩
      · simp only [visit]
        rw [if_pos (show True ∧ lhsOf value ∈ rewritable_types from
          ⟨trivial, by rw [hlhs]; exact hw⟩)]
        rw [if_neg hopt]
        rw [if_pos (show isConstant (Expr.constant csp so) = true from rfl)]
        rw [visit_headShape h hw]
        rfl
      · simp only [addKeep]
        split
        · assumption
        · simp
      · rfl
    · simp [isConstant] at hc
    · simp [isConstant] at hc
    · simp [isConstant] at hc
  · intro hc
    rcases slice with ⟨a1, a2⟩ | ⟨a1, a2, a3⟩ | ⟨a1, a2⟩ | ⟨a1, a2, a3, a4⟩ | ⟨a1, a2⟩ |
        ⟨a1, a2⟩
    · simp only [visit]
      rw [if_pos (show True ∧ lhsOf value ∈ rewritable_types from
        ⟨trivial, by rw [hlhs]; exact hw⟩)]
      rw [if_neg hopt]
      rw [if_neg (by simp [isConstant])]
      show (st.substitute (remap sp) _ >>= pure) = _
      rw [bind_pure]
    · simp only [visit]
      rw [if_pos (show True ∧ lhsOf value ∈ rewritable_types from
        ⟨trivial, by rw [hlhs]; exact hw⟩)]
      rw [if_neg hopt]
      rw [if_neg (by simp [isConstant])]
      show (st.substitute (remap sp) _ >>= pure) = _
      rw [bind_pure]
    · simp [isConstant] at hc
    · simp only [visit]
      rw [if_pos (show True ∧ lhsOf value ∈ rewritable_types from
        ⟨trivial, by rw [hlhs]; exact hw⟩)]
      rw [if_neg hopt]
      rw [if_neg (by simp [isConstant])]
      show (st.substitute (remap sp) _ >>= pure) = _
      rw [bind_pure]
    · simp [isTuple] at hnt
    · simp only [visit]
      rw [if_pos (show True ∧ lhsOf value ∈ rewritable_types from
        ⟨trivial, by rw [hlhs]; exact hw⟩)]
      rw [if_neg hopt]
      rw [if_neg (by simp [isConstant])]
      show (st.substitute (remap sp) _ >>= pure) = _
      rw [bind_pure]

/-- C6 (amended form): at a union-wrapper usage site over a tuple of
elements: (a) if any element is a string literal, `"Union"` is retained and
no edit is emitted for the site itself (the walk continues into the
children); (b) otherwise the site is replaced by the element renderings
joined by `" | "`, where (c) every element — atomic or not — is rendered by
the recursive sub-transformer (the as-is test of the code is applied to the
tuple, which is never an as-is node, so the verbatim-slice shortcut is
unreachable here). -/
theorem C6_union_tuple_branch (remap : Span → Span) (source : Str) (st : TState)
    (sp tsp : Span) (value : Expr) (elts : List Expr) (h : headShape value "Union") :
    (elts.any isStrConstant = true →
      visit remap source st (.subscript sp value (.tuple tsp elts) .load) =
        visitList remap source (addKeep st (str "Union")) elts ∧
      str "Union" ∈ (addKeep st (str "Union")).keep_imports_for ∧
      (addKeep st (str "Union")).operations = st.operations) ∧
    (elts.any isStrConstant = false →
      visit remap source st (.subscript sp value (.tuple tsp elts) .load) =
        unionParts remap source st false elts >>= fun p =>
          p.2.substitute (remap sp) (barJoin p.1)) ∧
    (∀ (e : Expr) (rest : List Expr) (stc : TState),
      unionParts remap source stc false (e :: rest) =
        sub_transformer remap source e >>= fun q =>
          unionParts remap source (mergeSub stc q.2) false rest >>= fun p =>
            pure (q.1 :: p.1, p.2)) := by
  have hw : str "Union" ∈ rewritable_types := by decide
  have hlhs : lhsOf value = str "Union" := lhsOf_headShape h hw
  have hopt : ¬ (lhsOf value = str "Optional") := by rw [hlhs]; decide
  refine ⟨?_, ?_, ?_⟩
  · intro hany
    refine ⟨?_, ?_, ?_⟩
    · simp only [visit]
      rw [if_pos (show True ∧ lhsOf value ∈ rewritable_types from
        ⟨trivial, by rw [hlhs]; exact hw⟩)]
      rw [if_neg hopt]
      rw [if_pos hany]
      rw [visit_headShape h hw]
      rfl
    · simp only [addKeep]
      split
      · assumption
      · simp
    · rfl
  · intro hany
    simp only [visit]
    rw [if_pos (show True ∧ lhsOf value ∈ rewritable_types from
      ⟨trivial, by rw [hlhs]; exact hw⟩)]
    rw [if_neg hopt]
    rw [if_neg (by rw [hany]; exact Bool.false_ne_true)]
    show (unionParts remap source st (is_as_is (Expr.tuple tsp elts)) elts >>= fun p =>
      p.2.substitute (remap sp) (barJoin p.1) >>= pure) = _
    simp only [bind_pure]
    rfl
  · intro e rest stc
    show (if false = true then _ else _) = _
    rw [if_neg (Bool.false_ne_true)]
    simp only [sub_transformer]
    simp only [bind_assoc, pure_bind]

/-- C9: the `sub_transformer` context-manager epilogue merges the nested
run's discoveries into the outer state: retained wrapper names, tracked
typing imports of both kinds, and the other-typing-attributes flag
(OR-ed); the rewriter operations are the outer ones.  Consequently a
wrapper name retained inside a nested run is retained in the state the
outer `rewrite_imports` consults, so the alias for that wrapper survives
the filter over the typing imports. -/
theorem C9_sub_transformer_merge :
    (∀ st sub : TState,
      (∀ w ∈ sub.keep_imports_for, w ∈ (mergeSub st sub).keep_imports_for) ∧
      (∀ r ∈ sub.import_froms, r ∈ (mergeSub st sub).import_froms) ∧
      (∀ r ∈ sub.imports, r ∈ (mergeSub st sub).imports) ∧
      (mergeSub st sub).other_attrs_encountered =
        (st.other_attrs_encountered || sub.other_attrs_encountered) ∧
      (mergeSub st sub).operations = st.operations) ∧
    (∀ (remap : Span → Span) (source : Str) (st : TState) (sp : Span)
        (value slice : Expr) (out : Str) (subSt : TState),
      headShape value "Optional" → isStrConstant slice = false → is_as_is slice = false →
      sub_transformer remap source slice = .ok (out, subSt) →
      ∀ st', visit remap source st (.subscript sp value slice .load) = .ok st' →
        st'.keep_imports_for = (mergeSub st subSt).keep_imports_for ∧
        st'.import_froms = (mergeSub st subSt).import_froms ∧
        st'.imports = (mergeSub st subSt).imports ∧
        st'.other_attrs_encountered =
          (st.other_attrs_encountered || subSt.other_attrs_encountered)) ∧
    (∀ (keep : List Str) (names : List Alias) (a : Alias),
      a ∈ names → a.name ∈ keep → a ∈ importFromNames keep names) := by
  refine ⟨?_, ?_, ?_⟩
  · intro st sub
    refine ⟨?_, ?_, ?_, rfl, rfl⟩
    · intro w hw
      by_cases hmem : w ∈ st.keep_imports_for
      · exact List.mem_append.mpr (Or.inl hmem)
      · exact List.mem_append.mpr (Or.inr (List.mem_filter.mpr ⟨hw, by simpa using hmem⟩))
    · intro r hr
      by_cases hmem : r ∈ st.import_froms
      · exact List.mem_append.mpr (Or.inl hmem)
      · exact List.mem_append.mpr (Or.inr (List.mem_filter.mpr ⟨hr, by simpa using hmem⟩))
    · intro r hr
      by_cases hmem : r ∈ st.imports
      · exact List.mem_append.mpr (Or.inl hmem)
      · exact List.mem_append.mpr (Or.inr (List.mem_filter.mpr ⟨hr, by simpa using hmem⟩))
  · intro remap source st sp value slice out subSt h hstr hasis hsub st' hvisit
    rw [visit_optional_nonatomic remap source st sp value slice h hstr hasis, hsub] at hvisit
    have hvisit' : (mergeSub st subSt).substitute (remap sp) (out ++ str " | None") =
        .ok st' := hvisit
    unfold TState.substitute at hvisit'
    rcases hops : Rewriter.substitute (mergeSub st subSt).operations (remap sp).lineno
        (remap sp).end_lineno (remap sp).col_offset (remap sp).end_col_offset
        (out ++ str " | None") with c | ops
    · rw [hops] at hvisit'
      exact absurd hvisit' (by simp [Bind.bind, Except.bind])
    · rw [hops] at hvisit'
      have : { mergeSub st subSt with operations := ops } = st' := by
        simpa [Bind.bind, Except.bind, pure, Except.pure] using hvisit'
      rw [← this]
      exact ⟨rfl, rfl, rfl, rfl⟩
  · intro keep names a ha hk
    exact List.mem_filter.mpr ⟨ha, by simp [hk]⟩

theorem C5_witness :
    visit id (str "x: Optional[int]") initState
      (.subscript ⟨1, 1, 3, 16⟩ (.name ⟨1, 1, 3, 11⟩ (str "Optional"))
        (.name ⟨1, 1, 12, 15⟩ (str "int")) .load) =
      .ok { initState with operations := [⟨1, 1, 3, 16, str "int | None"⟩] } := by
  rw [(C5_optional_branch id (str "x: Optional[int]") initState ⟨1, 1, 3, 16⟩
    (.name ⟨1, 1, 3, 11⟩ (str "Optional")) (.name ⟨1, 1, 12, 15⟩ (str "int"))
    (Or.inl ⟨⟨1, 1, 3, 11⟩, rfl⟩)).2.1 rfl rfl]
  rfl

theorem C6_witness :
    visit id (str "x: Union[int, str]") initState
      (.subscript ⟨1, 1, 3, 18⟩ (.name ⟨1, 1, 3, 8⟩ (str "Union"))
        (.tuple ⟨1, 1, 9, 17⟩
          [.name ⟨1, 1, 9, 12⟩ (str "int"), .name ⟨1, 1, 14, 17⟩ (str "str")]) .load) =
      .ok { initState with operations := [⟨1, 1, 3, 18, str "int | str"⟩] } := by
  rw [(C6_union_tuple_branch id (str "x: Union[int, str]") initState ⟨1, 1, 3, 18⟩
    ⟨1, 1, 9, 17⟩ (.name ⟨1, 1, 3, 8⟩ (str "Union"))
    [.name ⟨1, 1, 9, 12⟩ (str "int"), .name ⟨1, 1, 14, 17⟩ (str "str")]
    (Or.inl ⟨⟨1, 1, 3, 8⟩, rfl⟩)).2.1 rfl]
  rfl

theorem C7_witness :
    visit id (str "x: Union[List[int]]") initState
      (.subscript ⟨1, 1, 3, 19⟩ (.name ⟨1, 1, 3, 8⟩ (str "Union"))
        (.subscript ⟨1, 1, 9, 18⟩ (.name ⟨1, 1, 9, 13⟩ (str "List"))
          (.name ⟨1, 1, 14, 17⟩ (str "int")) .load) .load) =
      .ok { initState with operations := [⟨1, 1, 3, 19, str "List[int]"⟩] } := by
  rw [(C7_union_single_branch id (str "x: Union[List[int]]") initState ⟨1, 1, 3, 19⟩
    (.name ⟨1, 1, 3, 8⟩ (str "Union"))
    (.subscript ⟨1, 1, 9, 18⟩ (.name ⟨1, 1, 9, 13⟩ (str "List"))
      (.name ⟨1, 1, 14, 17⟩ (str "int")) .load)
    (Or.inl ⟨⟨1, 1, 3, 8⟩, rfl⟩) rfl).2 rfl]
  rfl

/-- The C7 failing input: a single non-string `Constant` argument. -/
def exUnionNoneSrc : Str := str "from typing import Union\nx: Union[None]"

def exUnionNoneTree : List Stmt :=
  [ .impFrom ⟨1, 1, 0, 24⟩ (some (str "typing")) [⟨str "Union", none⟩],
    .other ⟨2, 2, 0, 14⟩
      [ .name ⟨2, 2, 0, 1⟩ (str "x"),
        .subscript ⟨2, 2, 3, 14⟩ (.name ⟨2, 2, 3, 8⟩ (str "Union"))
          (.constant ⟨2, 2, 9, 13⟩ none) .load ] [] ]

/-- C7 counterexample: `Union[None]` has a single non-tuple, non-string
argument, yet no edit replaces the usage — the whole file is returned
unchanged (the `isinstance(node.slice, ast.Constant)` test retains `Union`
for every constant, not only strings). -/
theorem C7_counterexample :
    transform exUnionNoneSrc exUnionNoneTree = .ok exUnionNoneSrc ∧
      exUnionNoneSrc ≠ str "x: None" :=
  ⟨rfl, by decide⟩

/-- The C6 failing input: an atomic (attribute-reference) tuple element that
contains a nested wrapper usage. -/
def exAttrSrc : Str := str "from typing import Union, Optional\nt: Union[int, Optional[x].T]"

def exAttrTree : List Stmt :=
  [ .impFrom ⟨1, 1, 0, 34⟩ (some (str "typing"))
      [⟨str "Union", none⟩, ⟨str "Optional", none⟩],
    .other ⟨2, 2, 0, 28⟩
      [ .name ⟨2, 2, 0, 1⟩ (str "t"),
        .subscript ⟨2, 2, 3, 28⟩ (.name ⟨2, 2, 3, 8⟩ (str "Union"))
          (.tuple ⟨2, 2, 9, 27⟩
            [ .name ⟨2, 2, 9, 12⟩ (str "int"),
              .attribute ⟨2, 2, 14, 27⟩
                (.subscript ⟨2, 2, 14, 25⟩ (.name ⟨2, 2, 14, 22⟩ (str "Optional"))
                  (.name ⟨2, 2, 23, 24⟩ (str "x")) .load)
                (str "T") ]) .load ] [] ]

/-- C6 counterexample: the element `Optional[x].T` is an atomic attribute
reference, so the claimed atomic-vs-recursive rule would reuse its source
slice verbatim (`"int | Optional[x].T"`); the code instead runs the
sub-transformer on it, rewriting the nested usage and producing
`"t: int | x | None.T"`. -/
theorem C6_counterexample :
    transform exAttrSrc exAttrTree = .ok (str "t: int | x | None.T") ∧
      str "t: int | x | None.T" ≠ str "t: int | Optional[x].T" :=
  ⟨rfl, by decide⟩

theorem C9_witness :
    ({ initState with operations := [⟨1, 1, 3, 18, str "x + y | None"⟩] } :
        TState).keep_imports_for =
      (mergeSub initState initState).keep_imports_for ∧
    (⟨str "Optional", none⟩ : Alias) ∈
      importFromNames [str "Optional"] [⟨str "Optional", none⟩] := by
  constructor
  · exact (C9_sub_transformer_merge.2.1 id (str "a: Optional[x + y]") initState
      ⟨1, 1, 3, 18⟩ (.name ⟨1, 1, 3, 11⟩ (str "Optional"))
      (.other ⟨1, 1, 12, 17⟩ [.name ⟨1, 1, 12, 13⟩ (str "x"), .name ⟨1, 1, 16, 17⟩ (str "y")])
      (str "x + y") initState (Or.inl ⟨⟨1, 1, 3, 11⟩, rfl⟩) rfl rfl rfl
      { initState with operations := [⟨1, 1, 3, 18, str "x + y | None"⟩] } rfl).1
  · exact C9_sub_transformer_merge.2.2 [str "Optional"] [⟨str "Optional", none⟩]
      ⟨str "Optional", none⟩ (by simp) (by simp)

/-! ## Characterization of the import rewriting -/

/-- The edit (if any) that `rewrite_imports` emits for one tracked
`ImportFrom` node: `none` when no alias is removed; a whole-span deletion
when nothing remains; a re-rendered import otherwise. -/
def importFromEdit (keep : List Str) (node : ImportFromNode) : Option Substitution :=
  let names' := importFromNames keep node.names
  if names'.length = node.names.length then none
  else some ⟨node.sp.lineno, node.sp.end_lineno, node.sp.col_offset, node.sp.end_col_offset,
    if names' = [] then [] else unparseImportFrom node.module names'⟩

/-- The edit `rewrite_imports` emits for one tracked plain `Import` node
(emitted unconditionally for every tracked node when no other `typing`
attribute was encountered). -/
def importEdit (node : ImportNode) : Substitution :=
  let names' := node.names.filter (fun a => decide (a.name ≠ str "typing"))
  ⟨node.sp.lineno, node.sp.end_lineno, node.sp.col_offset, node.sp.end_col_offset,
    if names' = [] then [] else unparseImport names'⟩

theorem substitute_ok_perm (ops : List Substitution) (l e c ec : Nat) (t : Str)
    (ops' : List Substitution) (h : Rewriter.substitute ops l e c ec t = .ok ops') :
    List.Perm ops' ((⟨l, e, c, ec, t⟩ : Substitution) :: ops) := by
  unfold Rewriter.substitute at h
  dsimp only at h
  rcases h1 : (if 0 < Rewriter.bisect ops (Rewriter.sort_key ⟨l, e, c, ec, t⟩) then
      ops[Rewriter.bisect ops (Rewriter.sort_key ⟨l, e, c, ec, t⟩) - 1]?.bind
        (fun a => Rewriter.check_overlaps a ⟨l, e, c, ec, t⟩) else none) with _ | c1
  · rw [h1] at h
    rcases h2 : (ops[Rewriter.bisect ops (Rewriter.sort_key ⟨l, e, c, ec, t⟩)]?.bind
        (fun b => Rewriter.check_overlaps ⟨l, e, c, ec, t⟩ b)) with _ | c2
    · rw [h2] at h
      simp only [Except.ok.injEq] at h
      rw [← h]
      exact List.perm_insertIdx _ _
        (le_trans (List.countP_le_length _) le_rfl)
    · rw [h2] at h
      exact absurd h (by simp)
  · rw [h1] at h
    exact absurd h (by simp)

theorem TState_substitute_ok (st : TState) (sp : Span) (t : Str) (st' : TState)
    (h : st.substitute sp t = .ok st') :
    List.Perm st'.operations
      ((⟨sp.lineno, sp.end_lineno, sp.col_offset, sp.end_col_offset, t⟩ : Substitution) ::
        st.operations) ∧
    st'.import_froms = st.import_froms ∧ st'.imports = st.imports ∧
    st'.keep_imports_for = st.keep_imports_for ∧
    st'.other_attrs_encountered = st.other_attrs_encountered := by
  unfold TState.substitute at h
  rcases hops : Rewriter.substitute st.operations sp.lineno sp.end_lineno sp.col_offset
      sp.end_col_offset t with c | ops
  · rw [hops] at h
    exact absurd h (by simp [Bind.bind, Except.bind])
  · rw [hops] at h
    have hst : st' = { st with operations := ops } := by
      simpa [Bind.bind, Except.bind, pure, Except.pure] using h.symm
    subst hst
    exact ⟨substitute_ok_perm _ _ _ _ _ _ _ hops, rfl, rfl, rfl, rfl⟩

theorem rewriteImportFromsLoop_ok :
    ∀ (l : List ImportFromNode) (st st' : TState),
      rewriteImportFromsLoop st l = .ok st' →
      List.Perm st'.operations
        ((l.filterMap (importFromEdit st.keep_imports_for)) ++ st.operations) ∧
      st'.import_froms = st.import_froms ∧ st'.imports = st.imports ∧
      st'.keep_imports_for = st.keep_imports_for ∧
      st'.other_attrs_encountered = st.other_attrs_encountered := by
  intro l
  induction l with
  | nil =>
    intro st st' h
    have : st' = st := by
      simpa [rewriteImportFromsLoop, pure, Except.pure] using h.symm
    subst this
    exact ⟨by simp, rfl, rfl, rfl, rfl⟩
  | cons node rest ih =>
    intro st st' h
    rw [rewriteImportFromsLoop.eq_def] at h
    dsimp only at h
    by_cases hlen : (importFromNames st.keep_imports_for node.names).length =
        node.names.length
    · rw [if_neg (by simpa using hlen)] at h
      have hnone : importFromEdit st.keep_imports_for node = none := by
        simp [importFromEdit, hlen]
      have h' : rewriteImportFromsLoop st rest = .ok st' := by
        simpa [Bind.bind, Except.bind, pure, Except.pure] using h
      obtain ⟨hp, h2, h3, h4, h5⟩ := ih st st' h'
      exact ⟨by simpa [List.filterMap_cons, hnone] using hp, h2, h3, h4, h5⟩
    · rw [if_pos (by simpa using hlen)] at h
      set op : Substitution := ⟨node.sp.lineno, node.sp.end_lineno, node.sp.col_offset,
        node.sp.end_col_offset,
        if importFromNames st.keep_imports_for node.names = [] then []
        else unparseImportFrom node.module (importFromNames st.keep_imports_for node.names)⟩
        with hop
      have hsome : importFromEdit st.keep_imports_for node = some op := by
        simp [importFromEdit, hlen, hop]
      have hif : (if importFromNames st.keep_imports_for node.names = [] then
            (do
              let y ← st.substitute node.sp []
              rewriteImportFromsLoop y rest)
          else
            (do
              let y ← st.substitute node.sp
                (unparseImportFrom node.module
                  (importFromNames st.keep_imports_for node.names))
              rewriteImportFromsLoop y rest)) =
          (do
            let y ← st.substitute node.sp op.text
            rewriteImportFromsLoop y rest) := by
        by_cases hemp : importFromNames st.keep_imports_for node.names = [] <;>
          simp [hemp, hop]
      rw [hif] at h
      rcases hsub : st.substitute node.sp op.text with c | st₁
      · rw [hsub] at h
        exact absurd h (by simp [Bind.bind, Except.bind])
      · rw [hsub] at h
        have h' : rewriteImportFromsLoop st₁ rest = .ok st' := by
          simpa [Bind.bind, Except.bind] using h
        obtain ⟨hp1, h12, h13, h14, h15⟩ := TState_substitute_ok st node.sp op.text st₁ hsub
        obtain ⟨hp, h2, h3, h4, h5⟩ := ih st₁ st' h'
        rw [h14] at hp
        refine ⟨?_, h2.trans h12, h3.trans h13, h4.trans h14, h5.trans h15⟩
        have hop' : (⟨node.sp.lineno, node.sp.end_lineno, node.sp.col_offset,
            node.sp.end_col_offset, op.text⟩ : Substitution) = op := by
          rw [hop]
        rw [hop'] at hp1
        have hfm : List.filterMap (importFromEdit st.keep_imports_for) (node :: rest) =
            op :: List.filterMap (importFromEdit st.keep_imports_for) rest := by
          simp [List.filterMap_cons, hsome]
        rw [hfm]
        exact (hp.trans (hp1.append_left _)).trans List.perm_middle

theorem rewriteImportsLoop_ok :
    ∀ (l : List ImportNode) (st st' : TState),
      rewriteImportsLoop st l = .ok st' →
      List.Perm st'.operations ((l.map importEdit) ++ st.operations) ∧
      st'.import_froms = st.import_froms ∧ st'.imports = st.imports ∧
      st'.keep_imports_for = st.keep_imports_for ∧
      st'.other_attrs_encountered = st.other_attrs_encountered := by
  intro l
  induction l with
  | nil =>
    intro st st' h
    have : st' = st := by
      simpa [rewriteImportsLoop, pure, Except.pure] using h.symm
    subst this
    exact ⟨by simp, rfl, rfl, rfl, rfl⟩
  | cons node rest ih =>
    intro st st' h
    rw [rewriteImportsLoop.eq_def] at h
    dsimp only at h
    set op : Substitution := importEdit node with hop
    have hif : (if node.names.filter (fun a => decide (a.name ≠ str "typing")) = [] then
          (do
            let y ← st.substitute node.sp []
            rewriteImportsLoop y rest)
        else
          (do
            let y ← st.substitute node.sp
              (unparseImport (node.names.filter (fun a => decide (a.name ≠ str "typing"))))
            rewriteImportsLoop y rest)) =
        (do
          let y ← st.substitute node.sp op.text
          rewriteImportsLoop y rest) := by
      by_cases hemp : node.names.filter (fun a => decide (a.name ≠ str "typing")) = []
      · rw [if_pos hemp]
        have htext : op.text = [] := by
          rw [hop]; unfold importEdit; dsimp only; rw [if_pos hemp]
        rw [htext]
      · rw [if_neg hemp]
        have htext : op.text =
            unparseImport (node.names.filter (fun a => decide (a.name ≠ str "typing"))) := by
          rw [hop]; unfold importEdit; dsimp only; rw [if_neg hemp]
        rw [htext]
    rw [hif] at h
    rcases hsub : st.substitute node.sp op.text with c | st₁
    · rw [hsub] at h
      exact absurd h (by simp [Bind.bind, Except.bind])
    · rw [hsub] at h
      have h' : rewriteImportsLoop st₁ rest = .ok st' := by
        simpa [Bind.bind, Except.bind] using h
      obtain ⟨hp1, h12, h13, h14, h15⟩ := TState_substitute_ok st node.sp op.text st₁ hsub
      obtain ⟨hp, h2, h3, h4, h5⟩ := ih st₁ st' h'
      have hop' : (⟨node.sp.lineno, node.sp.end_lineno, node.sp.col_offset,
          node.sp.end_col_offset, op.text⟩ : Substitution) = op := by
        rw [hop]; rfl
      rw [hop'] at hp1
      refine ⟨?_, h2.trans h12, h3.trans h13, h4.trans h14, h5.trans h15⟩
      show List.Perm st'.operations ((op :: rest.map importEdit) ++ st.operations)
      exact (hp.trans (hp1.append_left _)).trans List.perm_middle

theorem rewrite_imports_ok (st st' : TState) (h : rewrite_imports st = .ok st') :
    List.Perm st'.operations
      ((st.import_froms.filterMap (importFromEdit st.keep_imports_for)) ++
        ((if st.other_attrs_encountered = true then [] else st.imports.map importEdit) ++
          st.operations)) ∧
    st'.keep_imports_for = st.keep_imports_for := by
  unfold rewrite_imports at h
  by_cases hb : st.other_attrs_encountered
  · rw [if_pos hb] at h
    have h' : rewriteImportFromsLoop st st.import_froms = .ok st' := by
      simpa [Bind.bind, Except.bind, pure, Except.pure] using h
    obtain ⟨hp, -, -, h4, -⟩ := rewriteImportFromsLoop_ok st.import_froms st st' h'
    rw [if_pos hb]
    exact ⟨by simpa using hp, h4⟩
  · rw [if_neg hb] at h
    rcases h1 : rewriteImportsLoop st st.imports with c | st₁
    · rw [h1] at h
      exact absurd h (by simp [Bind.bind, Except.bind])
    · rw [h1] at h
      have h' : rewriteImportFromsLoop st₁ st₁.import_froms = .ok st' := by
        simpa [Bind.bind, Except.bind] using h
      obtain ⟨hp1, h12, h13, h14, h15⟩ := rewriteImportsLoop_ok st.imports st st₁ h1
      obtain ⟨hp, -, -, h4, -⟩ := rewriteImportFromsLoop_ok st₁.import_froms st₁ st' h'
      rw [h12, h14] at hp
      rw [if_neg hb]
      refine ⟨?_, h4.trans h14⟩
      exact hp.trans (hp1.append_left _)

/-- C4 (amended form): for every tracked `from typing import …` statement,
exactly the aliases whose name is a wrapper name not in the Retention Set
are removed; the statement is left exactly as in the source iff no alias is
removed (so a wrapper import with no usage sites found is still rewritten —
its wrapper names are removed); when aliases are removed, the emitted edit
covers the node's span and is a deletion iff no alias remains (which
requires every alias to be a wrapper name absent from the Retention Set),
otherwise a re-rendered import of the remaining aliases; and on success
`rewrite_imports` commits exactly these edits (plus, when no other `typing`
attribute was seen, one edit per tracked plain `import typing` statement). -/
theorem C4_import_rewrite :
    (∀ (keep : List Str) (names : List Alias) (a : Alias), a ∈ names →
      (a ∉ importFromNames keep names ↔ (a.name ∈ rewritable_types ∧ a.name ∉ keep))) ∧
    (∀ (keep : List Str) (node : ImportFromNode),
      (importFromEdit keep node = none ↔ importFromNames keep node.names = node.names)) ∧
    (∀ (keep : List Str) (node : ImportFromNode) (op : Substitution),
      importFromEdit keep node = some op →
        (op.lineno = node.sp.lineno ∧ op.end_lineno = node.sp.end_lineno ∧
          op.col_offset = node.sp.col_offset ∧ op.end_col_offset = node.sp.end_col_offset) ∧
        (op.text = [] ↔ importFromNames keep node.names = []) ∧
        (op.text = [] → ∀ a ∈ node.names, a.name ∈ rewritable_types ∧ a.name ∉ keep) ∧
        (importFromNames keep node.names ≠ [] →
          op.text = unparseImportFrom node.module (importFromNames keep node.names))) ∧
    (∀ st st', rewrite_imports st = .ok st' →
      List.Perm st'.operations
        ((st.import_froms.filterMap (importFromEdit st.keep_imports_for)) ++
          ((if st.other_attrs_encountered = true then [] else st.imports.map importEdit) ++
            st.operations))) := by
  refine ⟨?_, ?_, ?_, ?_⟩
  · intro keep names a ha
    unfold importFromNames
    constructor
    · intro hnot
      by_contra hcon
      apply hnot
      refine List.mem_filter.mpr ⟨ha, ?_⟩
      simp only [decide_eq_true_eq]
      by_cases h1 : a.name ∈ rewritable_types
      · by_cases h2 : a.name ∈ keep
        · exact Or.inr h2
        · exact absurd ⟨h1, h2⟩ hcon
      · exact Or.inl h1
    · rintro ⟨h1, h2⟩ hmem
      have := (List.mem_filter.mp hmem).2
      simp only [decide_eq_true_eq] at this
      rcases this with h | h
      · exact h h1
      · exact h2 h
  · intro keep node
    unfold importFromEdit
    constructor
    · intro h
      by_cases hlen : (importFromNames keep node.names).length = node.names.length
      · exact List.Sublist.eq_of_length (List.filter_sublist _) hlen
      · rw [if_neg hlen] at h
        exact absurd h (by simp)
    · intro h
      rw [if_pos (by rw [h])]
  · intro keep node op h
    unfold importFromEdit at h
    by_cases hlen : (importFromNames keep node.names).length = node.names.length
    · rw [if_pos hlen] at h
      exact absurd h (by simp)
    · rw [if_neg hlen] at h
      simp only [Option.some.injEq] at h
      rw [← h]
      refine ⟨⟨rfl, rfl, rfl, rfl⟩, ?_, ?_, ?_⟩
      · constructor
        · intro ht
          by_cases hemp : importFromNames keep node.names = []
          · exact hemp
          · rw [if_neg hemp] at ht
            exact absurd ht (by simp [unparseImportFrom, str])
        · intro hemp
          rw [if_pos hemp]
      · intro ht a ha
        have hemp : importFromNames keep node.names = [] := by
          by_cases hemp : importFromNames keep node.names = []
          · exact hemp
          · rw [if_neg hemp] at ht
            exact absurd ht (by simp [unparseImportFrom, str])
        have : a ∉ importFromNames keep node.names := by rw [hemp]; simp
        unfold importFromNames at this
        by_contra hcon
        apply this
        refine List.mem_filter.mpr ⟨ha, ?_⟩
        simp only [decide_eq_true_eq]
        by_cases h1 : a.name ∈ rewritable_types
        · by_cases h2 : a.name ∈ keep
          · exact Or.inr h2
          · exact absurd ⟨h1, h2⟩ hcon
        · exact Or.inl h1
      · intro hemp
        rw [if_neg hemp]
  · intro st st' h
    exact (rewrite_imports_ok st st' h).1

/-- The C4 failing input: a wrapper-name import with no usage site anywhere. -/
def exUnusedSrc : Str := str "from typing import Union\nx = 1"

def exUnusedTree : List Stmt :=
  [ .impFrom ⟨1, 1, 0, 24⟩ (some (str "typing")) [⟨str "Union", none⟩],
    .other ⟨2, 2, 0, 5⟩ [.name ⟨2, 2, 0, 1⟩ (str "x"), .constant ⟨2, 2, 4, 5⟩ none] [] ]

/-- C4 counterexample: `from typing import Union` with no matching usage
site anywhere in the file is not left as in the source — the import line is
deleted. -/
theorem C4_counterexample :
    transform exUnusedSrc exUnusedTree = .ok (str "x = 1") ∧
      str "x = 1" ≠ exUnusedSrc :=
  ⟨rfl, by decide⟩

/-- A concrete pre-`rewrite_imports` state with one tracked wrapper import
and an empty Retention Set. -/
def stC4in : TState :=
  { import_froms := [⟨⟨1, 1, 0, 24⟩, some (str "typing"), [⟨str "Union", none⟩]⟩],
    imports := [], other_attrs_encountered := false, keep_imports_for := [],
    operations := [] }

def stC4out : TState := { stC4in with operations := [⟨1, 1, 0, 24, []⟩] }

theorem C4_witness :
    ((⟨str "Union", none⟩ : Alias) ∉ importFromNames [] [⟨str "Union", none⟩] ↔
      (str "Union" ∈ rewritable_types ∧ str "Union" ∉ ([] : List Str))) ∧
    List.Perm stC4out.operations
      (stC4in.import_froms.filterMap (importFromEdit stC4in.keep_imports_for) ++
        ((if stC4in.other_attrs_encountered = true then []
          else stC4in.imports.map importEdit) ++ stC4in.operations)) := by
  constructor
  · exact C4_import_rewrite.1 [] [⟨str "Union", none⟩] ⟨str "Union", none⟩ (by simp)
  · exact C4_import_rewrite.2.2.2 stC4in stC4out rfl

/-! ## The Rewriter invariant and conflict detection -/

namespace Rewriter

/-- Span start, the sort key. -/
def startPos (op : Substitution) : Nat × Nat := (op.lineno, op.col_offset)

/-- Span end. -/
def endPos (op : Substitution) : Nat × Nat := (op.end_lineno, op.end_col_offset)

/-- Strict lexicographic order on positions. -/
def keyLt (a b : Nat × Nat) : Prop := a.1 < b.1 ∨ (a.1 = b.1 ∧ a.2 < b.2)

theorem startPos_eq_sort_key (op : Substitution) : startPos op = sort_key op := rfl

theorem keyLe_trans {a b c : Nat × Nat} (h1 : keyLe a b) (h2 : keyLe b c) : keyLe a c := by
  unfold keyLe at *; omega

theorem keyLe_refl (a : Nat × Nat) : keyLe a a := by unfold keyLe; omega

theorem not_keyLe_iff {a b : Nat × Nat} : ¬ keyLe a b ↔ keyLt b a := by
  unfold keyLe keyLt; omega

theorem keyLt_le {a b : Nat × Nat} (h : keyLt a b) : keyLe a b := by
  unfold keyLe keyLt at *; omega

theorem keyLe_lt_trans {a b c : Nat × Nat} (h1 : keyLe a b) (h2 : keyLt b c) : keyLt a c := by
  unfold keyLe keyLt at *; omega

theorem keyLt_le_trans {a b c : Nat × Nat} (h1 : keyLt a b) (h2 : keyLe b c) : keyLt a c := by
  unfold keyLe keyLt at *; omega

theorem keyLe_lt_absurd {a b : Nat × Nat} (h1 : keyLe a b) (h2 : keyLt b a) : False := by
  unfold keyLe keyLt at *; omega

/-- Two operations genuinely overlap: each one starts strictly before the
other ends (half-open spans in lexicographic position order). -/
def overlap (a b : Substitution) : Prop :=
  keyLt (startPos b) (endPos a) ∧ keyLt (startPos a) (endPos b)

/-- The invariant of `Rewriter.operations`: sorted by span start, and each
operation ends no later than its successor starts. -/
def inv (ops : List Substitution) : Prop :=
  List.Pairwise (fun a b => keyLe (startPos a) (startPos b)) ops ∧
  List.Chain' (fun a b => keyLe (endPos a) (startPos b)) ops

theorem check_overlaps_none_iff (a b : Substitution) :
    check_overlaps a b = none ↔ keyLe (endPos a) (startPos b) := by
  unfold check_overlaps endPos startPos keyLe
  constructor
  · intro h
    by_cases h1 : a.end_lineno > b.lineno
    · rw [if_pos h1] at h; exact absurd h (by simp)
    · rw [if_neg h1] at h
      by_cases h2 : a.end_lineno = b.lineno ∧ a.end_col_offset > b.col_offset
      · rw [if_pos h2] at h; exact absurd h (by simp)
      · dsimp only; omega
  · intro h
    rw [if_neg (by dsimp only at h; omega), if_neg (by dsimp only at h; omega)]

theorem check_overlaps_some (a b : Substitution) (c : Conflict)
    (h : check_overlaps a b = some c) :
    c = (a, b) ∧ keyLt (startPos b) (endPos a) := by
  unfold check_overlaps at h
  by_cases h1 : a.end_lineno > b.lineno
  · rw [if_pos h1] at h
    refine ⟨by simpa using h.symm, ?_⟩
    unfold keyLt startPos endPos; left; exact h1
  · rw [if_neg h1] at h
    by_cases h2 : a.end_lineno = b.lineno ∧ a.end_col_offset > b.col_offset
    · rw [if_pos h2] at h
      refine ⟨by simpa using h.symm, ?_⟩
      unfold keyLt startPos endPos; right; exact ⟨h2.1.symm, h2.2⟩
    · rw [if_neg h2] at h
      exact absurd h (by simp)

/-- On a key-sorted list, `bisect` counts exactly the initial segment of
keys `≤ k`: an index is below the insertion point iff its key is `≤ k`. -/
theorem bisect_spec (ops : List Substitution) (k : Nat × Nat)
    (hs : List.Pairwise (fun a b => keyLe (sort_key a) (sort_key b)) ops) :
    ∀ i (hi : i < ops.length),
      (i < bisect ops k ↔ keyLe (sort_key ops[i]) k) := by
  induction ops with
  | nil => intro i hi; simp at hi
  | cons o rest ih =>
    intro i hi
    rcases List.pairwise_cons.mp hs with ⟨hhead, hrest⟩
    unfold bisect at *
    rw [List.countP_cons]
    by_cases hp : keyLe (sort_key o) k
    · have hd : (decide (keyLe (sort_key o) k)) = true := by simpa using hp
      rw [hd]
      simp only [if_pos]
      cases i with
      | zero => simpa using hp
      | succ j =>
        have hj : j < rest.length := by simpa using hi
        have := ih hrest j hj
        simpa [Nat.succ_lt_succ_iff] using this
    · have hall : List.countP (fun o => decide (keyLe (sort_key o) k)) rest = 0 := by
        rw [List.countP_eq_zero]
        intro x hx
        simp only [decide_eq_true_eq]
        intro hle
        exact hp (keyLe_trans (hhead x hx) hle)
      have hd : (decide (keyLe (sort_key o) k)) = false := by simpa using hp
      rw [hd]
      cases i with
      | zero => simpa [hall] using hp
      | succ j =>
        have hj : j < rest.length := by simpa using hi
        simp only [hall, Bool.false_eq_true, if_false]
        constructor
        · intro h; omega
        · intro hle
          have hx : rest[j] ∈ rest := List.getElem_mem hj
          exact (hp (keyLe_trans (hhead _ hx) hle)).elim

end Rewriter

namespace Rewriter

theorem insertIdx_eq_take_drop (l : List Substitution) (n : Nat) (x : Substitution)
    (h : n ≤ l.length) : l.insertIdx n x = l.take n ++ x :: l.drop n := by
  induction l generalizing n with
  | nil =>
    have : n = 0 := by simpa using h
    subst this
    rfl
  | cons a t ih =>
    cases n with
    | zero => rfl
    | succ m =>
      simp only [List.insertIdx_succ_cons, List.take_succ_cons, List.drop_succ_cons,
        List.cons_append]
      rw [ih m (by simpa using h)]

/-- Sortedness plus the adjacent non-overlap chain give full pairwise
non-overlap. -/
theorem pairwise_nonoverlap (ops : List Substitution) (h : inv ops) :
    List.Pairwise (fun a b => keyLe (endPos a) (startPos b)) ops := by
  obtain ⟨hs, hc⟩ := h
  induction ops with
  | nil => exact List.Pairwise.nil
  | cons o rest ih =>
    rcases List.pairwise_cons.mp hs with ⟨hhead, hrest⟩
    have hcrest : List.Chain' (fun a b => keyLe (endPos a) (startPos b)) rest :=
      (List.chain'_cons'.mp hc).2
    refine List.pairwise_cons.mpr ⟨?_, ih hrest hcrest⟩
    intro x hx
    cases rest with
    | nil => simp at hx
    | cons r t =>
      have hor : keyLe (endPos o) (startPos r) := (List.chain'_cons.mp hc).1
      rcases List.mem_cons.mp hx with rfl | hxt
      · exact hor
      · rcases List.pairwise_cons.mp hrest with ⟨hr, -⟩
        exact keyLe_trans hor (hr x hxt)

/-- C3: with the `Rewriter` invariant in force, `substitute` (a) raises the
conflict exception whenever the new operation overlaps a committed one, and
the exception names the new operation together with a committed one —
nothing is applied or dropped silently; and (b) whenever it succeeds, the
new list is exactly the old operations plus the new one, again sorted by
span start with pairwise non-overlapping spans. -/
theorem C3_substitute_conflict_safe (ops : List Substitution)
    (l e c ec : Nat) (t : Str) (h : inv ops) :
    ((∃ o ∈ ops, overlap o ⟨l, e, c, ec, t⟩) →
      ∃ cf : Conflict, substitute ops l e c ec t = .error cf ∧
        ((cf.1 ∈ ops ∧ cf.2 = ⟨l, e, c, ec, t⟩) ∨
         (cf.1 = ⟨l, e, c, ec, t⟩ ∧ cf.2 ∈ ops))) ∧
    (∀ ops', substitute ops l e c ec t = .ok ops' →
      inv ops' ∧
      List.Pairwise (fun a b => keyLe (endPos a) (startPos b)) ops' ∧
      List.Perm ops' ((⟨l, e, c, ec, t⟩ : Substitution) :: ops)) := by
  obtain ⟨hs, hc⟩ := h
  set op : Substitution := ⟨l, e, c, ec, t⟩ with hop
  set idx := bisect ops (sort_key op) with hidx
  have hidxle : idx ≤ ops.length := List.countP_le_length _
  have hspec : ∀ i (hi : i < ops.length), (i < idx ↔ keyLe (sort_key ops[i]) (sort_key op)) :=
    bisect_spec ops (sort_key op) hs
  have hsubst : substitute ops l e c ec t =
      (match (if 0 < idx then ops[idx - 1]?.bind (fun a => check_overlaps a op) else none) with
       | some cf => Except.error cf
       | none =>
         match ops[idx]?.bind (fun b => check_overlaps op b) with
         | some cf => Except.error cf
         | none => Except.ok (ops.insertIdx idx op)) := rfl
  set pc := (if 0 < idx then ops[idx - 1]?.bind (fun a => check_overlaps a op) else none)
    with hpc
  set nc := ops[idx]?.bind (fun b => check_overlaps op b) with hnc
  have hprev_none : pc = none → 0 < idx →
      ∀ a, ops[idx - 1]? = some a → keyLe (endPos a) (startPos op) := by
    intro hpcn hpos a hga
    rw [hpc, if_pos hpos, hga] at hpcn
    simp only [Option.some_bind] at hpcn
    exact (check_overlaps_none_iff _ _).mp hpcn
  have hnext_none : nc = none → ∀ b, ops[idx]? = some b → keyLe (endPos op) (startPos b) := by
    intro hncn b hgb
    rw [hnc, hgb] at hncn
    simp only [Option.some_bind] at hncn
    exact (check_overlaps_none_iff _ _).mp hncn
  have hkey : sort_key op = startPos op := rfl
  constructor
  · rintro ⟨o, homem, hov⟩
    rcases hpcv : pc with _ | cf
    · rcases hncv : nc with _ | cf
      · exfalso
        obtain ⟨i, hi, rfl⟩ := List.mem_iff_getElem.mp homem
        have hpno := pairwise_nonoverlap ops ⟨hs, hc⟩
        by_cases hlt : i < idx
        · by_cases hsucc : i + 1 = idx
          · have hga : ops[idx - 1]? = some ops[i] := by
              have heq : idx - 1 = i := by omega
              rw [heq]
              exact List.getElem?_eq_getElem hi
            have := hprev_none hpcv (by omega) _ hga
            exact keyLe_lt_absurd this hov.1
          · have hi1 : i + 1 < idx := by omega
            have hi1len : i + 1 < ops.length := by omega
            have h1 : keyLe (endPos ops[i]) (startPos ops[i + 1]) :=
              List.pairwise_iff_getElem.mp hpno i (i + 1) hi hi1len (by omega)
            have h2 : keyLe (sort_key ops[i + 1]) (sort_key op) := (hspec (i + 1) hi1len).mp hi1
            have h3 : keyLe (endPos ops[i]) (startPos op) := keyLe_trans h1 h2
            exact keyLe_lt_absurd h3 hov.1
        · have hidxlt : idx < ops.length := by omega
          have h1 : keyLe (endPos op) (startPos ops[idx]) :=
            hnext_none hncv _ (List.getElem?_eq_getElem hidxlt)
          have h2 : keyLe (startPos ops[idx]) (startPos ops[i]) := by
            by_cases heq : idx = i
            · subst heq; exact keyLe_refl _
            · exact List.pairwise_iff_getElem.mp hs idx i hidxlt hi (by omega)
          exact keyLe_lt_absurd (keyLe_trans h1 h2) hov.2
      · refine ⟨cf, by rw [hsubst, hpcv, hncv], ?_⟩
        right
        have h0 : ops[idx]?.bind (fun b => check_overlaps op b) = some cf := by rw [← hnc, hncv]
        rcases hge : ops[idx]? with _ | b
        · rw [hge] at h0; exact absurd h0 (by simp)
        · rw [hge] at h0
          simp only [Option.some_bind] at h0
          obtain ⟨hcf, -⟩ := check_overlaps_some _ _ _ h0
          rw [hcf]
          exact ⟨rfl, List.getElem?_mem hge⟩
    · refine ⟨cf, by rw [hsubst, hpcv], ?_⟩
      left
      have h0 : pc = some cf := hpcv
      rw [hpc] at h0
      by_cases hpos : 0 < idx
      · rw [if_pos hpos] at h0
        rcases hge : ops[idx - 1]? with _ | a
        · rw [hge] at h0; exact absurd h0 (by simp)
        · rw [hge] at h0
          simp only [Option.some_bind] at h0
          obtain ⟨hcf, -⟩ := check_overlaps_some _ _ _ h0
          rw [hcf]
          exact ⟨List.getElem?_mem hge, rfl⟩
      · rw [if_neg hpos] at h0
        exact absurd h0 (by simp)
  · intro ops' hok
    rw [hsubst] at hok
    rcases hpcv : pc with _ | cf
    · rcases hncv : nc with _ | cf
      · rw [hpcv, hncv] at hok
        simp only [Except.ok.injEq] at hok
        subst hok
        have hperm : List.Perm (ops.insertIdx idx op) (op :: ops) :=
          List.perm_insertIdx _ _ hidxle
        rw [insertIdx_eq_take_drop ops idx op hidxle] at hperm ⊢
        have hmem_take : ∀ x ∈ ops.take idx, ∃ i, ∃ hi : i < ops.length, i < idx ∧ ops[i] = x := by
          intro x hx
          obtain ⟨i, hi, hget⟩ := List.mem_iff_getElem.mp hx
          have hi' : i < idx := lt_of_lt_of_le hi (by simp [List.length_take])
          have hilen : i < ops.length := by
            have := List.length_take_le idx ops
            have h2 := hi
            simp only [List.length_take] at h2
            omega
          refine ⟨i, hilen, by omega, ?_⟩
          rw [← hget, List.getElem_take]
        have hmem_drop : ∀ y ∈ ops.drop idx, ∃ i, ∃ hi : i < ops.length, idx ≤ i ∧ ops[i] = y := by
          intro y hy
          obtain ⟨j, hj, hget⟩ := List.mem_iff_getElem.mp hy
          have hjlen : idx + j < ops.length := by
            simp only [List.length_drop] at hj
            omega
          refine ⟨idx + j, hjlen, by omega, ?_⟩
          rw [← hget, List.getElem_drop]
        have hsort' : List.Pairwise (fun a b => keyLe (startPos a) (startPos b))
            (ops.take idx ++ op :: ops.drop idx) := by
          rw [List.pairwise_append]
          refine ⟨hs.sublist (List.take_sublist idx ops), ?_, ?_⟩
          · refine List.pairwise_cons.mpr ⟨?_, hs.sublist (List.drop_sublist idx ops)⟩
            intro y hy
            obtain ⟨i, hilen, hge, rfl⟩ := hmem_drop y hy
            have hncon : ¬ keyLe (sort_key ops[i]) (sort_key op) := by
              intro hcon
              exact absurd ((hspec i hilen).mpr hcon) (by omega)
            exact keyLt_le (not_keyLe_iff.mp hncon)
          · intro x hx y hy
            obtain ⟨i, hilen, hlt, rfl⟩ := hmem_take x hx
            have hxle : keyLe (startPos ops[i]) (startPos op) := (hspec i hilen).mp hlt
            rcases List.mem_cons.mp hy with rfl | hyd
            · exact hxle
            · obtain ⟨j, hjlen, hge, rfl⟩ := hmem_drop y hyd
              have : ¬ keyLe (sort_key ops[j]) (sort_key op) := by
                intro hcon
                exact absurd ((hspec j hjlen).mpr hcon) (by omega)
              have hlt2 := not_keyLe_iff.mp this
              exact keyLe_trans hxle (keyLt_le hlt2)
        have hchain' : List.Chain' (fun a b => keyLe (endPos a) (startPos b))
            (ops.take idx ++ op :: ops.drop idx) := by
          rw [List.chain'_append]
          refine ⟨hc.take idx, ?_, ?_⟩
          · refine List.chain'_cons'.mpr ⟨?_, hc.drop idx⟩
            intro y hy
            rw [List.head?_drop] at hy
            rcases hlt : decide (idx < ops.length) with _ | _
            · have : ¬ idx < ops.length := by simpa using hlt
              rw [List.getElem?_eq_none (by omega)] at hy
              exact absurd hy (by simp)
            · have hidxlt : idx < ops.length := by simpa using hlt
              rw [List.getElem?_eq_getElem hidxlt] at hy
              have hyeq : y = ops[idx] := by simpa using hy.symm
              rw [hyeq]
              exact hnext_none hncv _ (List.getElem?_eq_getElem hidxlt)
          · intro x hx y hy
            rw [List.getLast?_take] at hx
            by_cases hzero : idx = 0
            · rw [if_pos hzero] at hx
              exact absurd hx (by simp)
            · rw [if_neg hzero] at hx
              have hidx1 : idx - 1 < ops.length := by omega
              rw [List.getElem?_eq_getElem hidx1] at hx
              simp only [Option.or_some, Option.mem_def, Option.some.injEq] at hx
              have hyop : y = op := by simpa using hy.symm
              rw [← hx, hyop]
              exact hprev_none hpcv (by omega) _ (List.getElem?_eq_getElem hidx1)
        exact ⟨⟨hsort', hchain'⟩, pairwise_nonoverlap _ ⟨hsort', hchain'⟩, hperm⟩
      · rw [hpcv, hncv] at hok
        exact absurd hok (by simp)
    · rw [hpcv] at hok
      exact absurd hok (by simp)

end Rewriter

theorem C3_witness :
    (∃ cf : Conflict,
      Rewriter.substitute [⟨1, 1, 0, 5, str "A"⟩] 1 1 3 8 (str "B") = .error cf ∧
        ((cf.1 ∈ [(⟨1, 1, 0, 5, str "A"⟩ : Substitution)] ∧
            cf.2 = (⟨1, 1, 3, 8, str "B"⟩ : Substitution)) ∨
          (cf.1 = (⟨1, 1, 3, 8, str "B"⟩ : Substitution) ∧
            cf.2 ∈ [(⟨1, 1, 0, 5, str "A"⟩ : Substitution)]))) ∧
    (Rewriter.inv [⟨1, 1, 0, 5, str "A"⟩, ⟨1, 1, 6, 8, str "C"⟩] ∧
      List.Pairwise (fun a b => Rewriter.keyLe (Rewriter.endPos a) (Rewriter.startPos b))
        [⟨1, 1, 0, 5, str "A"⟩, ⟨1, 1, 6, 8, str "C"⟩] ∧
      List.Perm [(⟨1, 1, 0, 5, str "A"⟩ : Substitution), ⟨1, 1, 6, 8, str "C"⟩]
        ((⟨1, 1, 6, 8, str "C"⟩ : Substitution) :: [⟨1, 1, 0, 5, str "A"⟩])) := by
  have hinv : Rewriter.inv [⟨1, 1, 0, 5, str "A"⟩] := by
    unfold Rewriter.inv
    constructor <;> simp
  constructor
  · exact (Rewriter.C3_substitute_conflict_safe [⟨1, 1, 0, 5, str "A"⟩] 1 1 3 8 (str "B")
      hinv).1 ⟨⟨1, 1, 0, 5, str "A"⟩, by simp, by
        unfold Rewriter.overlap Rewriter.keyLt Rewriter.startPos Rewriter.endPos
        dsimp only
        refine ⟨Or.inr ⟨rfl, ?_⟩, Or.inr ⟨rfl, ?_⟩⟩ <;> omega⟩
  · exact (Rewriter.C3_substitute_conflict_safe [⟨1, 1, 0, 5, str "A"⟩] 1 1 6 8 (str "C")
      hinv).2 [⟨1, 1, 0, 5, str "A"⟩, ⟨1, 1, 6, 8, str "C"⟩] rfl

/-! ## The frame property of `get_result` -/

namespace Rewriter

/-- The line addressed by a 1-based line number. -/
def lineAt (ls : List Str) (n : Nat) : Str := ls.getD (n - 1) []

/-- Well-formedness of an operation's span relative to the line buffer:
the positions of a real AST node — 1-based lines in range, columns within
their lines, a non-empty span, a start column strictly inside its line and
an end column of at least 1 (a node never starts past the end of a line or
ends at column 0). -/
def wf (ls : List Str) (op : Substitution) : Prop :=
  1 ≤ op.lineno ∧ op.lineno ≤ op.end_lineno ∧ op.end_lineno ≤ ls.length ∧
  keyLt (startPos op) (endPos op) ∧
  op.col_offset < (lineAt ls op.lineno).length ∧
  op.end_col_offset ≤ (lineAt ls op.end_lineno).length ∧
  1 ≤ op.end_col_offset

/-- The forward splicing specification, in the original coordinate system.
`renderLines ls e c ops` is the list of output lines for the document
region from position `(e, c)` (1-based line, half-open column) to the end,
under the edits `ops`, which are sorted, pairwise non-overlapping and lie
at or after `(e, c)`:
* with no edits, the original lines from `(e, c)` onward — verbatim;
* an edit contributes the untouched original lines strictly before its
  start line (`mid`, verbatim), then one line assembled from the original
  start-line prefix before the edit's start column, the replacement text,
  and the first line of the rendered continuation after the edit's end
  position, followed by the rest of that continuation;
* exception: an empty replacement starting at column 0 of a single line
  whose continuation renders that line's remainder empty deletes the line
  (this is the whole-line deletion of `get_result`, whose test reads the
  length of the line in the buffer after the later edits were applied).
Every character outside the edit spans is taken verbatim from `ls`. -/
def renderLines (ls : List Str) : Nat → Nat → List Substitution → List Str
  | e, c, [] => modHead (List.drop c) (ls.drop (e - 1))
  | e, c, op :: rest =>
    let cont := renderLines ls op.end_lineno op.end_col_offset rest
    let mid := (ls.drop (e - 1)).take (op.lineno - e)
    if op.text = [] ∧ op.lineno = op.end_lineno ∧ op.col_offset = 0 ∧
        cont.head?.getD [] = [] then
      modHead (List.drop c) (mid ++ cont.tail)
    else
      modHead (List.drop c)
        (mid ++ ((lineAt ls op.lineno).take op.col_offset ++ op.text ++
          cont.head?.getD []) :: cont.tail)

theorem renderLines_cons (ls : List Str) (e c : Nat) (op : Substitution)
    (rest : List Substitution) :
    renderLines ls e c (op :: rest) =
      if op.text = [] ∧ op.lineno = op.end_lineno ∧ op.col_offset = 0 ∧
          (renderLines ls op.end_lineno op.end_col_offset rest).head?.getD [] = [] then
        modHead (List.drop c) ((ls.drop (e - 1)).take (op.lineno - e) ++
          (renderLines ls op.end_lineno op.end_col_offset rest).tail)
      else
        modHead (List.drop c) ((ls.drop (e - 1)).take (op.lineno - e) ++
          ((lineAt ls op.lineno).take op.col_offset ++ op.text ++
            (renderLines ls op.end_lineno op.end_col_offset rest).head?.getD []) ::
            (renderLines ls op.end_lineno op.end_col_offset rest).tail) := rfl

theorem modHead_drop_zero (l : List Str) : modHead (List.drop 0) l = l := by
  cases l <;> simp [modHead]

theorem modHead_append_of_ne_nil (f : Str → Str) {l₁ : List Str} (h : l₁ ≠ [])
    (l₂ : List Str) : modHead f (l₁ ++ l₂) = modHead f l₁ ++ l₂ := by
  cases l₁ with
  | nil => exact absurd rfl h
  | cons a t => rfl

theorem wf_end_col_pos {ls : List Str} {op : Substitution} (h : wf ls op) :
    1 ≤ op.end_col_offset := h.2.2.2.2.2.2

end Rewriter

namespace Rewriter

/-- The workhorse: applying sorted, non-overlapping, well-formed operations
in reverse order over the mutable line buffer produces, for the document
region from `(e, c)` onward, exactly the forward rendering `renderLines`,
while the buffer strictly before `(e, c)` is untouched. -/
theorem foldr_applyOp_renderLines (ls : List Str) :
    ∀ (ops : List Substitution), inv ops → (∀ op ∈ ops, wf ls op) →
    ∀ e c, 1 ≤ e → e ≤ ls.length → c ≤ (lineAt ls e).length →
      (∀ op, ops.head? = some op → keyLe (e, c) (startPos op)) →
      ((ops.foldr (fun op lines => applyOp lines op) ls).take (e - 1) = ls.take (e - 1) ∧
       (∀ hb, (ops.foldr (fun op lines => applyOp lines op) ls)[e - 1]? = some hb →
         hb.take c = (lineAt ls e).take c) ∧
       modHead (List.drop c) ((ops.foldr (fun op lines => applyOp lines op) ls).drop (e - 1)) =
         renderLines ls e c ops ∧
       (1 ≤ c → e ≤ (ops.foldr (fun op lines => applyOp lines op) ls).length)) := by
  intro ops
  induction ops with
  | nil =>
    intro hinv hwf e c he1 helen hc hfirst
    refine ⟨rfl, ?_, rfl, fun _ => helen⟩
    intro hb hhb
    have hhb2 : ls[e - 1]? = some hb := hhb
    rw [List.getElem?_eq_getElem (show e - 1 < ls.length by omega)] at hhb2
    have : hb = ls[e - 1] := by simpa using hhb2.symm
    rw [this]
    have : lineAt ls e = ls[e - 1] := by
      unfold lineAt
      exact List.getD_eq_getElem ls [] (by omega)
    rw [this]
  | cons op rest ih =>
    intro hinv hwf e c he1 helen hc hfirst
    obtain ⟨hs, hch⟩ := hinv
    rcases List.pairwise_cons.mp hs with ⟨-, hsrest⟩
    have hchrest : List.Chain' (fun a b => keyLe (endPos a) (startPos b)) rest :=
      (List.chain'_cons'.mp hch).2
    have hwfop : wf ls op := hwf op (by simp)
    have hwfrest : ∀ x ∈ rest, wf ls x := fun x hx => hwf x (by simp [hx])
    obtain ⟨hL1, hL12, hL2len, hspan, hC1lt, hC2le, hC2pos⟩ := hwfop
    have hle : keyLe (e, c) (startPos op) := hfirst op rfl
    have hrestfirst : ∀ b, rest.head? = some b → keyLe (op.end_lineno, op.end_col_offset)
        (startPos b) := by
      intro b hb
      have := (List.chain'_cons'.mp hch).1 b hb
      exact this
    have ihspec := ih ⟨hsrest, hchrest⟩ hwfrest op.end_lineno op.end_col_offset
      (by omega) hL2len hC2le hrestfirst
    set B' := rest.foldr (fun op lines => applyOp lines op) ls with hB'
    obtain ⟨h1', h2', h3', h4'⟩ := ihspec
    have hBlen : op.end_lineno ≤ B'.length := h4' hC2pos
    have hdropne : B'.drop (op.end_lineno - 1) ≠ [] := by
      intro hcon
      have := congrArg List.length hcon
      simp only [List.length_drop, List.length_nil] at this
      omega
    obtain ⟨hd, tl, hsplit⟩ : ∃ hd tl, B'.drop (op.end_lineno - 1) = hd :: tl := by
      rcases hx : B'.drop (op.end_lineno - 1) with _ | ⟨a, b⟩
      · exact absurd hx hdropne
      · exact ⟨a, b, rfl⟩
    have hhd : B'[op.end_lineno - 1]? = some hd := by
      rw [← List.head?_drop, hsplit]
      rfl
    have htl : B'.drop op.end_lineno = tl := by
      have hx := congrArg (List.drop 1) hsplit
      simpa [List.drop_drop, show (op.end_lineno - 1) + 1 = op.end_lineno by omega,
        show 1 + (op.end_lineno - 1) = op.end_lineno by omega] using hx
    have hcont : renderLines ls op.end_lineno op.end_col_offset rest =
        hd.drop op.end_col_offset :: tl := by
      rw [← h3', hsplit]
      rfl
    have hlineAt2 : lineAt ls op.end_lineno = ls.getD (op.end_lineno - 1) [] := rfl
    have hhdtake : hd.take op.end_col_offset =
        (lineAt ls op.end_lineno).take op.end_col_offset := h2' hd hhd
    have hlineAt2len : (lineAt ls op.end_lineno).length = ls[op.end_lineno - 1].length := by
      rw [hlineAt2, List.getD_eq_getElem ls [] (by omega)]
    have hhdlen : op.end_col_offset ≤ hd.length := by
      have hx := congrArg List.length hhdtake
      simp only [List.length_take] at hx
      omega
    have hB'get? : ∀ i, i < op.end_lineno - 1 → B'[i]? = ls[i]? := by
      intro i hi
      have hx := congrArg (fun l => l[i]?) h1'
      simpa [List.getElem?_take, hi] using hx
    have hgetD2 : B'.getD (op.end_lineno - 1) [] = hd := by
      rw [List.getD_eq_getElem?_getD, hhd]
      rfl
    have htakeB' : B'.take (op.lineno - 1) = ls.take (op.lineno - 1) := by
      have hx := congrArg (List.take (op.lineno - 1)) h1'
      simpa [List.take_take, Nat.min_eq_left (show op.lineno - 1 ≤ op.end_lineno - 1 by omega)]
        using hx
    have hBtake_drop : (B'.take (op.lineno - 1)).drop (e - 1) =
        (ls.drop (e - 1)).take (op.lineno - e) := by
      rw [htakeB', List.drop_take]
      congr 1
      omega
    have hle' : e < op.lineno ∨ (e = op.lineno ∧ c ≤ op.col_offset) := by
      simpa [keyLe, startPos] using hle
    have heL1 : e ≤ op.lineno := by
      rcases hle' with h | h
      · omega
      · omega
    by_cases hcc : op.text = [] ∧ op.lineno = op.end_lineno ∧ op.col_offset = 0 ∧
        op.end_col_offset = (B'.getD (op.lineno - 1) []).length
    · -- whole-line deletion
      obtain ⟨htxt, hLL, hc0, hlen⟩ := hcc
      have hlenhd : op.end_col_offset = hd.length := by
        rw [hlen, hLL, hgetD2]
      have hdropC2 : hd.drop op.end_col_offset = [] := by
        rw [List.drop_eq_nil_iff]
        omega
      have happly : List.foldr (fun op lines => applyOp lines op) ls (op :: rest) =
          B'.take (op.lineno - 1) ++ B'.drop op.lineno := by
        show applyOp B' op = _
        unfold applyOp
        rw [if_pos ⟨htxt, hLL, hc0, hlen⟩]
        rw [List.eraseIdx_eq_take_drop_succ,
          show op.lineno - 1 + 1 = op.lineno from by omega]
      have hrender : renderLines ls e c (op :: rest) =
          modHead (List.drop c) ((ls.drop (e - 1)).take (op.lineno - e) ++ tl) := by
        rw [renderLines_cons,
          if_pos ⟨htxt, hLL, hc0, by rw [hcont]; simpa using hdropC2⟩, hcont]
        rfl
      have hecase : e < op.lineno ∨ (e = op.lineno ∧ c = 0) := by
        rcases hle' with h | h
        · left; exact h
        · right
          omega
      rw [happly, hrender]
      have hBdrop : (B'.take (op.lineno - 1) ++ B'.drop op.lineno).drop (e - 1) =
          (ls.drop (e - 1)).take (op.lineno - e) ++ tl := by
        rw [List.drop_append_of_le_length (by
          simp only [List.length_take]
          omega), hBtake_drop, hLL, htl]
      refine ⟨?_, ?_, ?_, ?_⟩
      · rw [List.take_append_of_le_length (by
          simp only [List.length_take]
          omega), htakeB', List.take_take, Nat.min_eq_left (by omega)]
      · intro hb hhb
        rcases hecase with hlt | ⟨heq, hc0'⟩
        · have hx : (B'.take (op.lineno - 1) ++ B'.drop op.lineno)[e - 1]? =
              (B'.take (op.lineno - 1))[e - 1]? := by
            rw [List.getElem?_append_left (by
              simp only [List.length_take]
              omega)]
          rw [hx] at hhb
          have hy : (B'.take (op.lineno - 1))[e - 1]? = B'[e - 1]? := by
            rw [List.getElem?_take]
            simp only [if_pos (show e - 1 < op.lineno - 1 by omega)]
          rw [hy, hB'get? (e - 1) (by omega)] at hhb
          rw [List.getElem?_eq_getElem (show e - 1 < ls.length by omega)] at hhb
          have : hb = ls[e - 1] := by simpa using hhb.symm
          rw [this, show lineAt ls e = ls[e - 1] from
            List.getD_eq_getElem ls [] (by omega)]
        · rw [hc0']
          simp
      · rw [hBdrop]
      · intro hcpos
        have : ¬ (e = op.lineno ∧ c = 0) := by
          rintro ⟨-, h0⟩
          omega
        have helt : e < op.lineno := by
          rcases hecase with h | h
          · exact h
          · exact absurd h this
        simp only [List.length_append, List.length_take, List.length_drop]
        omega
    · -- splice branch
      have hspan' : op.lineno < op.end_lineno ∨
          (op.lineno = op.end_lineno ∧ op.col_offset < op.end_col_offset) := by
        simpa [keyLt, startPos, endPos] using hspan
      have hgetD1take : (B'.getD (op.lineno - 1) []).take op.col_offset =
          (lineAt ls op.lineno).take op.col_offset := by
        by_cases hLL : op.lineno = op.end_lineno
        · have hC1C2 : op.col_offset < op.end_col_offset := by
            rcases hspan' with h | h
            · omega
            · omega
          rw [hLL, hgetD2]
          calc hd.take op.col_offset
              = (hd.take op.end_col_offset).take op.col_offset := by
                rw [List.take_take, Nat.min_eq_left (by omega)]
            _ = ((lineAt ls op.end_lineno).take op.end_col_offset).take op.col_offset := by
                rw [hhdtake]
            _ = (lineAt ls op.end_lineno).take op.col_offset := by
                rw [List.take_take, Nat.min_eq_left (by omega)]
        · have hlt : op.lineno - 1 < op.end_lineno - 1 := by omega
          have hgetD1 : B'.getD (op.lineno - 1) [] = lineAt ls op.lineno := by
            rw [show lineAt ls op.lineno = ls.getD (op.lineno - 1) [] from rfl,
              List.getD_eq_getElem?_getD, List.getD_eq_getElem?_getD, hB'get? _ hlt]
          rw [hgetD1]
      set M : Str := (lineAt ls op.lineno).take op.col_offset ++ op.text ++
        hd.drop op.end_col_offset with hM
      have hXlen : (B'.take (op.lineno - 1)).length = op.lineno - 1 := by
        rw [List.length_take]
        omega
      have hset : B'.set (op.lineno - 1) M =
          B'.take (op.lineno - 1) ++ M :: B'.drop op.lineno := by
        rw [List.set_eq_take_cons_drop M (show op.lineno - 1 < B'.length by omega),
          show op.lineno - 1 + 1 = op.lineno from by omega]
      have htakeL1 : (B'.set (op.lineno - 1) M).take op.lineno =
          B'.take (op.lineno - 1) ++ [M] := by
        rw [hset, List.take_append_eq_append_take, hXlen,
          show op.lineno - (op.lineno - 1) = 1 from by omega,
          List.take_of_length_le (by rw [hXlen]; omega)]
        rfl
      have hdropL2 : (B'.set (op.lineno - 1) M).drop op.end_lineno = tl := by
        rcases Nat.lt_or_ge (op.lineno - 1) B'.length with hin | hout
        · rw [hset, List.drop_append_eq_append_drop, hXlen,
            List.drop_of_length_le (by rw [hXlen]; omega),
            show op.end_lineno - (op.lineno - 1) =
              (op.end_lineno - op.lineno) + 1 from by omega]
          simp only [List.nil_append, List.drop_succ_cons, List.drop_drop]
          rw [show op.lineno + (op.end_lineno - op.lineno) = op.end_lineno from by omega, htl]
        · omega
      have hB : List.foldr (fun op lines => applyOp lines op) ls (op :: rest) =
          (B'.take (op.lineno - 1) ++ [M]) ++ tl := by
        show applyOp B' op = _
        unfold applyOp
        rw [if_neg hcc]
        dsimp only
        rw [hgetD1take, hgetD2, ← hM, htakeL1, hdropL2]
      have hncond : ¬ (op.text = [] ∧ op.lineno = op.end_lineno ∧ op.col_offset = 0 ∧
          (renderLines ls op.end_lineno op.end_col_offset rest).head?.getD [] = []) := by
        rintro ⟨ht, hll, h0, hh⟩
        apply hcc
        refine ⟨ht, hll, h0, ?_⟩
        rw [hll, hgetD2]
        rw [hcont] at hh
        simp only [List.head?_cons, Option.getD_some] at hh
        have := List.drop_eq_nil_iff.mp hh
        omega
      have hrender : renderLines ls e c (op :: rest) =
          modHead (List.drop c) ((ls.drop (e - 1)).take (op.lineno - e) ++ M :: tl) := by
        rw [renderLines_cons, if_neg hncond, hcont]
        rfl
      have hBtakelen : (B'.take (op.lineno - 1) ++ [M]).length = op.lineno := by
        simp only [List.length_append, List.length_cons, List.length_nil, hXlen]
        omega
      have hBdrop : ((B'.take (op.lineno - 1) ++ [M]) ++ tl).drop (e - 1) =
          (ls.drop (e - 1)).take (op.lineno - e) ++ M :: tl := by
        rw [List.drop_append_of_le_length (by rw [hBtakelen]; omega),
          List.drop_append_of_le_length (by rw [hXlen]; omega),
          hBtake_drop, List.append_assoc]
        rfl
      have hB'takeE : B'.take (e - 1) = ls.take (e - 1) := by
        have hx := congrArg (List.take (e - 1)) h1'
        simpa [List.take_take, Nat.min_eq_left (show e - 1 ≤ op.end_lineno - 1 by omega)]
          using hx
      rw [hB, hrender]
      refine ⟨?_, ?_, ?_, ?_⟩
      · rw [List.take_append_of_le_length (by rw [hBtakelen]; omega),
          List.take_append_of_le_length (by rw [hXlen]; omega),
          List.take_take, Nat.min_eq_left (by omega), hB'takeE]
      · intro hb hhb
        rcases hle' with hlt | ⟨heq, hcC1⟩
        · rw [List.getElem?_append_left (by rw [hBtakelen]; omega),
            List.getElem?_append_left (by rw [hXlen]; omega),
            List.getElem?_take_of_lt (by omega), hB'get? _ (by omega),
            List.getElem?_eq_getElem (show e - 1 < ls.length by omega)] at hhb
          have hbe : hb = ls[e - 1] := by simpa using hhb.symm
          rw [hbe, show lineAt ls e = ls[e - 1] from List.getD_eq_getElem ls [] (by omega)]
        · rw [List.getElem?_append_left (by rw [hBtakelen]; omega),
            List.getElem?_append_right (by rw [hXlen]; omega)] at hhb
          rw [hXlen, show e - 1 - (op.lineno - 1) = 0 from by omega] at hhb
          have hbM : hb = M := by simpa using hhb.symm
          rw [hbM, hM, heq,
            List.take_append_of_le_length (by
              simp only [List.length_append, List.length_take]
              omega),
            List.take_append_of_le_length (by
              simp only [List.length_take]
              omega),
            List.take_take, Nat.min_eq_left (by omega)]
      · rw [hBdrop]
      · intro hcpos
        simp only [List.length_append, List.length_cons, List.length_nil, hXlen]
        omega

end Rewriter

namespace Rewriter

instance (a b : Nat × Nat) : Decidable (keyLt a b) :=
  inferInstanceAs (Decidable (a.1 < b.1 ∨ (a.1 = b.1 ∧ a.2 < b.2)))

instance (a b : Nat × Nat) : Decidable (keyLe a b) :=
  inferInstanceAs (Decidable (a.1 < b.1 ∨ (a.1 = b.1 ∧ a.2 ≤ b.2)))

instance : DecidableRel (fun a b : Substitution => keyLe (startPos a) (startPos b)) :=
  fun a b => inferInstanceAs (Decidable (keyLe (startPos a) (startPos b)))

instance : DecidableRel (fun a b : Substitution => keyLe (endPos a) (startPos b)) :=
  fun a b => inferInstanceAs (Decidable (keyLe (endPos a) (startPos b)))

/-- C8 (amended): For every committed list of non-overlapping edit operations
(sorted by span start, each ending no later than the next begins, with spans
that are well-formed positions of real AST nodes in the source's line buffer),
the text produced by `get_result` equals the forward rendering `renderLines`
of the source in original coordinates: every line before, between and after
the edit spans is copied byte-identically from the input, and each edit merges
its spanned lines into start-line prefix ++ replacement ++ end-line suffix.
Whole-line deletion, however, follows the mutated buffer rather than the input
snapshot: an empty replacement starting at column 0 of a single line deletes
that line together with its trailing newline exactly when the remainder of the
line past the edit's end renders to the empty string once all later edits have
been applied (the guard `cont.head?.getD [] = []` in `renderLines`, matching
the code's length test against the already-edited buffer line) — not only when
the edit's span covers the whole input line.  In particular a line's newline,
though outside every edit span, can be deleted by abutting empty edits; see
`C8_counterexample`. -/
theorem C8_frame_effect (source : Str) (ops : List Substitution)
    (hinv : inv ops) (hwf : ∀ op ∈ ops, wf (splitNL source) op) :
    get_result ops source = joinNL (renderLines (splitNL source) 1 0 ops) := by
  unfold get_result
  congr 1
  have hlen : 1 ≤ (splitNL source).length :=
    List.length_pos.mpr (splitNL_ne_nil source)
  have hfirst : ∀ op, ops.head? = some op → keyLe (1, 0) (startPos op) := by
    intro op h
    have hmem : op ∈ ops := by
      cases ops with
      | nil => simp at h
      | cons a t =>
        simp only [List.head?_cons, Option.some.injEq] at h
        subst h
        exact List.mem_cons_self a t
    have h1 := (hwf op hmem).1
    unfold keyLe startPos
    dsimp only
    omega
  have hmain := foldr_applyOp_renderLines (splitNL source) ops hinv hwf 1 0
    (le_refl 1) hlen (Nat.zero_le _) hfirst
  have h3 := hmain.2.2.1
  simpa [modHead_drop_zero] using h3

end Rewriter

theorem C8_witness :
    Rewriter.inv [⟨1, 1, 1, 2, str "X"⟩, ⟨2, 2, 0, 3, []⟩] ∧
    (∀ op ∈ [(⟨1, 1, 1, 2, str "X"⟩ : Substitution), ⟨2, 2, 0, 3, []⟩],
      Rewriter.wf (splitNL (str "abc\ndef\nghi")) op) ∧
    Rewriter.get_result [⟨1, 1, 1, 2, str "X"⟩, ⟨2, 2, 0, 3, []⟩]
        (str "abc\ndef\nghi") =
      joinNL (Rewriter.renderLines (splitNL (str "abc\ndef\nghi")) 1 0
        [⟨1, 1, 1, 2, str "X"⟩, ⟨2, 2, 0, 3, []⟩]) ∧
    Rewriter.get_result [⟨1, 1, 1, 2, str "X"⟩, ⟨2, 2, 0, 3, []⟩]
        (str "abc\ndef\nghi") = str "aXc\nghi" := by
  have hinv : Rewriter.inv [⟨1, 1, 1, 2, str "X"⟩, ⟨2, 2, 0, 3, []⟩] := by
    unfold Rewriter.inv
    refine ⟨List.Pairwise.cons ?_ (List.pairwise_singleton _ _),
      List.chain'_cons.mpr ⟨?_, List.chain'_singleton _⟩⟩
    · intro b hb
      rcases List.mem_singleton.mp hb with rfl
      decide
    · decide
  have hwf : ∀ op ∈ [(⟨1, 1, 1, 2, str "X"⟩ : Substitution), ⟨2, 2, 0, 3, []⟩],
      Rewriter.wf (splitNL (str "abc\ndef\nghi")) op := by
    intro op h
    rcases List.mem_cons.mp h with rfl | h2
    · unfold Rewriter.wf Rewriter.keyLt
      decide
    · rcases List.mem_cons.mp h2 with rfl | h3
      · unfold Rewriter.wf Rewriter.keyLt
        decide
      · simp at h3
  exact ⟨hinv, hwf,
    Rewriter.C8_frame_effect (str "abc\ndef\nghi")
      [⟨1, 1, 1, 2, str "X"⟩, ⟨2, 2, 0, 3, []⟩] hinv hwf, rfl⟩

/-- C8, original wording, refuted: the two abutting empty edits commit through
`substitute` with no conflict, are well formed for the source `"abcde\nxyz"`,
and neither has an empty replacement exactly covering one whole input line
(the first spans columns 0-3 and the second columns 3-5 of the 5-character
line), yet `get_result` returns `"xyz"`: the newline after `"abcde"`, which
lies outside both edit spans, is not byte-identically preserved.  Applied in
reverse, the second edit shortens the buffer line to `"abc"`, and the first
edit's deletion test then fires against that mutated buffer line. -/
theorem C8_counterexample :
    Rewriter.substitute [] 1 1 0 3 [] = .ok [⟨1, 1, 0, 3, []⟩] ∧
    Rewriter.substitute [⟨1, 1, 0, 3, []⟩] 1 1 3 5 [] =
      .ok [⟨1, 1, 0, 3, []⟩, ⟨1, 1, 3, 5, []⟩] ∧
    Rewriter.inv [⟨1, 1, 0, 3, []⟩, ⟨1, 1, 3, 5, []⟩] ∧
    (∀ op ∈ [(⟨1, 1, 0, 3, []⟩ : Substitution), ⟨1, 1, 3, 5, []⟩],
      Rewriter.wf (splitNL (str "abcde\nxyz")) op ∧
      ¬ (op.text = [] ∧ op.col_offset = 0 ∧
        op.end_col_offset =
          (Rewriter.lineAt (splitNL (str "abcde\nxyz")) op.lineno).length)) ∧
    Rewriter.get_result [⟨1, 1, 0, 3, []⟩, ⟨1, 1, 3, 5, []⟩] (str "abcde\nxyz") =
      str "xyz" ∧
    (str "abcde\nxyz").count '\n' = 1 ∧ (str "xyz").count '\n' = 0 := by
  refine ⟨rfl, rfl, ?_, ?_, rfl, rfl, rfl⟩
  · unfold Rewriter.inv
    refine ⟨List.Pairwise.cons ?_ (List.pairwise_singleton _ _),
      List.chain'_cons.mpr ⟨?_, List.chain'_singleton _⟩⟩
    · intro b hb
      rcases List.mem_singleton.mp hb with rfl
      decide
    · decide
  · intro op h
    rcases List.mem_cons.mp h with rfl | h2
    · exact ⟨by unfold Rewriter.wf Rewriter.keyLt; decide, by decide⟩
    · rcases List.mem_cons.mp h2 with rfl | h3
      · exact ⟨by unfold Rewriter.wf Rewriter.keyLt; decide, by decide⟩
      · simp at h3
